import Mathlib

/-!
Xoroshiro128+ generator of `be::util` (xoroshiro_128_plus.hpp).

A shallow embedding of `be::util::Xoroshiro128Plus<DefaultSeed>` and of the
helpers in `be::util::detail`.  The `U64` words are natural numbers; every
operation that can overflow in the source is followed by `% 2 ^ 64` here.
-/

namespace be.util

/-! ## Data model -/

/-- The class `detail::Xoroshiro128PlusState`: `U64 data[2]`, the field `data0` being
`data[0]` and `data1` being `data[1]`. -/
structure Xoroshiro128PlusState where
  data0 : Nat
  data1 : Nat
  deriving DecidableEq

/-- The constant `Xoroshiro128PlusState::state_length`. -/
def state_length : Nat := 2

/-- Both words of a state fit the `U64` type. -/
def Xoroshiro128PlusState.WF (s : Xoroshiro128PlusState) : Prop :=
  s.data0 < 2 ^ 64 ∧ s.data1 < 2 ^ 64

instance (s : Xoroshiro128PlusState) : Decidable s.WF := by
  unfold Xoroshiro128PlusState.WF; infer_instance

/-- The class template `Xoroshiro128Plus<DefaultSeed>`, which derives from
`detail::Xoroshiro128PlusState` and has no field of its own. -/
structure Xoroshiro128Plus (DefaultSeed : Nat) extends Xoroshiro128PlusState
  deriving DecidableEq

/-- The member `state()`: the state subobject of a generator. -/
def Xoroshiro128Plus.state {D : Nat} (g : Xoroshiro128Plus D) : Xoroshiro128PlusState :=
  g.toXoroshiro128PlusState

/-- The static member `default_seed`. -/
def Xoroshiro128Plus.default_seed {D : Nat} (_g : Xoroshiro128Plus D) : Nat := D

/-! ## Generation -/

/-- The private member `rot_left_(x, k)`: `(x << k) | (x >> (64 - k))` on `U64`. -/
def rot_left_ (x k : Nat) : Nat :=
  ((x <<< k) % 2 ^ 64) ||| (x >>> (8 * 8 - k))

/-- The member `operator()()`: the returned value and the generator afterwards. -/
def Xoroshiro128Plus.next {D : Nat} (g : Xoroshiro128Plus D) : Nat × Xoroshiro128Plus D :=
  let s0 := g.data0
  let s1 := g.data1
  let result := (s0 + s1) % 2 ^ 64
  let s1 := s1 ^^^ s0
  (result, ⟨⟨rot_left_ s0 55 ^^^ s1 ^^^ ((s1 <<< 14) % 2 ^ 64), rot_left_ s1 36⟩⟩)

/-- The member `discard(num)`: `while (num) { (*this)(); --num; }`. -/
def Xoroshiro128Plus.discard {D : Nat} : Nat → Xoroshiro128Plus D → Xoroshiro128Plus D
  | 0, g => g
  | num + 1, g => Xoroshiro128Plus.discard num g.next.2

/-- The table `jump_data` of `jump()`. -/
def jump_data : List Nat := [0xbeac0467eba5facb, 0xd86b048b86aa9922]

/-- One pass of the inner loop body of `jump()` for word `i` and bit `b`: the
accumulators `s0`, `s1` and the generator. -/
def jump_body {D : Nat} (i : Nat) (acc : Nat × Nat × Xoroshiro128Plus D) (b : Nat) :
    Nat × Nat × Xoroshiro128Plus D :=
  let s0 := acc.1
  let s1 := acc.2.1
  let g := acc.2.2
  if jump_data.getD i 0 &&& (1 <<< b) ≠ 0 then
    (s0 ^^^ g.data0, s1 ^^^ g.data1, g.next.2)
  else
    (s0, s1, g.next.2)

/-- The member `jump()`. -/
def Xoroshiro128Plus.jump {D : Nat} (g : Xoroshiro128Plus D) : Xoroshiro128Plus D :=
  let r := (List.range state_length).foldl
    (fun acc i => (List.range (8 * 8)).foldl (jump_body i) acc) (0, 0, g)
  ⟨⟨r.1, r.2.1⟩⟩

/-- The member `jump(num)`: `while (num) { jump(); --num; }`. -/
def Xoroshiro128Plus.jumpN {D : Nat} : Nat → Xoroshiro128Plus D → Xoroshiro128Plus D
  | 0, g => g
  | num + 1, g => Xoroshiro128Plus.jumpN num g.jump

/-- The static member `min()`. -/
def Xoroshiro128Plus.min (_D : Nat) : Nat := 0

/-- The static member `max()`: `std::numeric_limits<U64>::max()`. -/
def Xoroshiro128Plus.max (_D : Nat) : Nat := 2 ^ 64 - 1

/-- The operator `detail::operator==` on states: the loop over both words. -/
def Xoroshiro128PlusState.eq (a b : Xoroshiro128PlusState) : Bool :=
  if a.data0 ≠ b.data0 then false
  else if a.data1 ≠ b.data1 then false
  else true

/-- The operator `detail::operator!=` on states. -/
def Xoroshiro128PlusState.ne (a b : Xoroshiro128PlusState) : Bool :=
  !(a.eq b)

/-- The operator `operator==` on generators of default seeds `S` and `T`. -/
def Xoroshiro128Plus.eq {S T : Nat} (a : Xoroshiro128Plus S) (b : Xoroshiro128Plus T) : Bool :=
  a.state.eq b.state

/-- The operator `operator!=` on generators of default seeds `S` and `T`. -/
def Xoroshiro128Plus.ne {S T : Nat} (a : Xoroshiro128Plus S) (b : Xoroshiro128Plus T) : Bool :=
  !(a.state.eq b.state)

/-! ## Seeding -/

/-- A random-bit generator handed to `seed`: `result_size` is `sizeof(result_type)`, `out i` is
the value that its `i`-th call returns, and `calls` counts the calls made so far. -/
structure Generator where
  result_size : Nat
  out : Nat → Nat
  calls : Nat

/-- One call `generator()`: the value, as wide as `result_type`, and the generator afterwards. -/
def Generator.call (gen : Generator) : Nat × Generator :=
  (gen.out gen.calls % 2 ^ (8 * gen.result_size), ⟨gen.result_size, gen.out, gen.calls + 1⟩)

/-- A seed sequence: `generate n i` is the `i`-th word stored by `generate(begin, begin + n)`. -/
structure SeedSeq where
  generate : Nat → Nat → Nat

/-- The object representation of a `w`-byte unsigned value on a little-endian host. -/
def to_bytes (w v : Nat) : List Nat :=
  (List.range w).map (fun j => (v >>> (8 * j)) % 256)

/-- The unsigned value whose little-endian object representation is `bs`. -/
def of_bytes (bs : List Nat) : Nat :=
  bs.foldr (fun b acc => b + 256 * acc) 0

/-- The call `memcpy(data, temp, sizeof(data))` for an array `temp` of `w`-byte elements. -/
def memcpy_data (w : Nat) (temp : List Nat) : Xoroshiro128PlusState :=
  let bytes := temp.flatMap (to_bytes w)
  ⟨of_bytes (bytes.take 8), of_bytes ((bytes.drop 8).take 8)⟩

/-- The overload `seed_with_gen_(generator, True)`, chosen when `result_type` is as wide as
`U64`: `data[i] = generator()` for `i = 0, 1`. -/
def seed_with_gen_same (gen : Generator) : Xoroshiro128PlusState × Generator :=
  let r0 := gen.call
  let r1 := r0.2.call
  (⟨r0.1 % 2 ^ 64, r1.1 % 2 ^ 64⟩, r1.2)

/-- The overload `seed_with_gen_(generator, std::false_type)`: `n` calls fill `temp`, whose
first 16 bytes are copied over `data`. -/
def seed_with_gen_diff (gen : Generator) : Xoroshiro128PlusState × Generator :=
  let w := gen.result_size
  let n := (8 * state_length + w - 1) / w
  let r := (List.range n).foldl
    (fun (acc : List Nat × Generator) _ => (acc.1 ++ [acc.2.call.1], acc.2.call.2)) ([], gen)
  (memcpy_data w r.1, r.2)

/-- The private member `validate_state_()`.  The call `seed()` of its last line is
`seed(default_seed)`, which builds `SplitMix64<> seed_gen(default_seed)`, fills the state from it
and validates again; `SplitMix64 s i` is the `i`-th word that a `SplitMix64<>` built from `s`
returns.  The fuel bounds the depth of this recursion, and `none` is a run that did not return
within it. -/
def validate_state_ (SplitMix64 : Nat → Nat → Nat) (D : Nat) :
    Nat → Xoroshiro128Plus D → Option (Xoroshiro128Plus D)
  | 0, g =>
    if g.data0 ≠ 0 then some g
    else if g.data1 ≠ 0 then some g
    else none
  | fuel + 1, g =>
    if g.data0 ≠ 0 then some g
    else if g.data1 ≠ 0 then some g
    else validate_state_ SplitMix64 D fuel ⟨(seed_with_gen_same ⟨8, SplitMix64 D, 0⟩).1⟩

/-- The overload `seed_(generator, False)` for a generator: fill the state, then validate. -/
def seed_gen_ (SplitMix64 : Nat → Nat → Nat) (D fuel : Nat) (gen : Generator) :
    Option (Xoroshiro128Plus D × Generator) :=
  let r := if gen.result_size = 8 then seed_with_gen_same gen else seed_with_gen_diff gen
  (validate_state_ SplitMix64 D fuel ⟨r.1⟩).map (fun g => (g, r.2))

/-- The overload `seed_(sseq, True)` for a seed sequence: four `U32` words, copied over `data`,
then validation. -/
def seed_sseq_ (SplitMix64 : Nat → Nat → Nat) (D fuel : Nat) (sseq : SeedSeq) :
    Option (Xoroshiro128Plus D) :=
  let n := state_length * 2
  let temp := (List.range n).map (fun i => sseq.generate n i % 2 ^ 32)
  validate_state_ SplitMix64 D fuel ⟨memcpy_data 4 temp⟩

/-- The member `seed(U64 s)`, which is also the constructor from a `U64`. -/
def seed (SplitMix64 : Nat → Nat → Nat) (D fuel : Nat) (s : Nat) :
    Option (Xoroshiro128Plus D) :=
  (seed_gen_ SplitMix64 D fuel ⟨8, SplitMix64 s, 0⟩).map Prod.fst

/-- The private member `assign_(other)`, behind the constructors and assignments from a state
or from a generator of another default seed; `self` tells whether `other` is this very
object, in which case `g` is left alone. -/
def assign_ (SplitMix64 : Nat → Nat → Nat) (D fuel : Nat) (other : Xoroshiro128PlusState)
    (self : Bool) (g : Xoroshiro128Plus D) : Option (Xoroshiro128Plus D) :=
  if !self then validate_state_ SplitMix64 D fuel ⟨other⟩ else some g

/-! ## Reference notions used to state the properties -/

/-- The 64-bit circular left rotation of `x` by `k`, from the bit-vector library. -/
def rotl64 (x k : Nat) : Nat :=
  ((BitVec.ofNat 64 x).rotateLeft k).toNat

/-- The words `(0, 0)`, which validation rejects. -/
def Xoroshiro128PlusState.isZero (s : Xoroshiro128PlusState) : Prop :=
  s.data0 = 0 ∧ s.data1 = 0

instance (s : Xoroshiro128PlusState) : Decidable s.isZero := by
  unfold Xoroshiro128PlusState.isZero; infer_instance

/-- The invariant of a generator: both words fit the `U64` type and are not both zero. -/
def Xoroshiro128Plus.Valid {D : Nat} (g : Xoroshiro128Plus D) : Prop :=
  g.state.WF ∧ ¬ g.state.isZero

instance {D : Nat} (g : Xoroshiro128Plus D) : Decidable g.Valid := by
  unfold Xoroshiro128Plus.Valid; infer_instance

/-- The seeding path `path`, run with a given fuel, ends in validation of the words `raw`: words
not both zero are the final state, and otherwise the run is that of `seed(default_seed)`. -/
def ValidatedFrom (SplitMix64 : Nat → Nat → Nat) (D : Nat)
    (path : Nat → Option (Xoroshiro128Plus D)) (raw : Xoroshiro128PlusState) : Prop :=
  ∀ fuel : Nat, (¬ raw.isZero → path fuel = some ⟨raw⟩) ∧
    (raw.isZero → path (fuel + 1) = seed SplitMix64 D fuel D)

/-- The first `n` values returned by successive calls of `operator()`. -/
def Xoroshiro128Plus.outputs {D : Nat} : Nat → Xoroshiro128Plus D → List Nat
  | 0, _ => []
  | n + 1, g => g.next.1 :: Xoroshiro128Plus.outputs n g.next.2

/-! ## Text streams

The streams of the standard library, as far as `operator<<` and `operator>>` of the generator
use them: character streams in the classic locale with the default format flags (decimal,
`skipws`, no field width). -/

/-- An input stream: the characters not yet extracted and the state flags. -/
structure IStream where
  buf : List Char
  failbit : Bool
  eofbit : Bool
  badbit : Bool
  deriving DecidableEq

/-- The conversion `(bool)is`, which is `!is.fail()`. -/
def IStream.ok (is : IStream) : Bool := !(is.failbit || is.badbit)

/-- The white space of the classic locale: space and the control characters 9 to 13. -/
def isspace (c : Char) : Bool := c.toNat = 32 || (9 ≤ c.toNat && c.toNat ≤ 13)

/-- The decimal digits. -/
def isdigit (c : Char) : Bool := 48 ≤ c.toNat && c.toNat ≤ 57

/-- The value of a run of decimal digits. -/
def digits_value (ds : List Char) : Nat :=
  ds.foldl (fun acc c => 10 * acc + (c.toNat - 48)) 0

/-- The conversion of the extracted characters as `strtoull` does it: whether it fails, and the
value stored.  No digit stores 0 and fails, a value above `2^64 - 1` stores `2^64 - 1` and
fails, and a minus sign negates modulo `2^64`. -/
def convert_u64 (minus : Bool) (ds : List Char) : Bool × Nat :=
  if ds.isEmpty then (true, 0)
  else if 2 ^ 64 - 1 < digits_value ds then (true, 2 ^ 64 - 1)
  else (false, if minus then (2 ^ 64 - digits_value ds) % 2 ^ 64 else digits_value ds)

/-- The extraction `is >> x` for `x` of type `U64`: the stream afterwards and the value stored in
`x` (`old` when nothing is stored).  A stream that is not good only gets `failbit`.  Otherwise
white space is skipped, which fails at the end of the characters; then an optional sign and the
longest run of digits are extracted and converted, a failed conversion sets `failbit`, and
reaching the end of the characters sets `eofbit`. -/
def IStream.get_u64 (is : IStream) (old : Nat) : IStream × Nat :=
  if is.failbit || is.badbit || is.eofbit then (⟨is.buf, true, is.eofbit, is.badbit⟩, old)
  else
    let rest := is.buf.dropWhile isspace
    if rest.isEmpty then (⟨[], true, true, is.badbit⟩, old)
    else
      let minus := decide (rest.head? = some (Char.ofNat 45))
      let plus := decide (rest.head? = some (Char.ofNat 43))
      let rest1 := if minus || plus then rest.tail else rest
      let r := convert_u64 minus (rest1.takeWhile isdigit)
      let rest2 := rest1.dropWhile isdigit
      (⟨rest2, r.1, rest2.isEmpty, is.badbit⟩, r.2)

/-- The digits of `n`, most significant first, put in front of `acc`; the fuel bounds their
number. -/
def put_digits : Nat → Nat → List Char → List Char
  | 0, _, acc => acc
  | fuel + 1, n, acc =>
    if n < 10 then Char.ofNat (48 + n) :: acc
    else put_digits fuel (n / 10) (Char.ofNat (48 + n % 10) :: acc)

/-- The insertion `os << x` for `x` of type `U64`, on the characters written so far: the decimal
digits of `x`, of which a `U64` has at most 20. -/
def put_u64 (os : List Char) (x : Nat) : List Char :=
  os ++ put_digits 20 x []

/-- The function `detail::read_xoroshiro128plus_state` up to its last assignment: the stream
afterwards, and the state `temp` to assign to `s` when the stream is still good after the loop
(where `temp` starts out as `temp0`, which the source leaves uninitialised). -/
def read_xoroshiro128plus_state (is : IStream) (temp0 : Xoroshiro128PlusState) :
    IStream × Option Xoroshiro128PlusState :=
  let r0 := if is.ok then is.get_u64 temp0.data0 else (is, temp0.data0)
  let r1 := if r0.1.ok then r0.1.get_u64 temp0.data1 else (r0.1, temp0.data1)
  (r1.1, if r1.1.ok then some ⟨r0.2, r1.2⟩ else none)

/-- The operator `detail::operator<<` for a state, on the characters written so far. -/
def Xoroshiro128PlusState.write (os : List Char) (state : Xoroshiro128PlusState) : List Char :=
  put_u64 (put_u64 os state.data0 ++ [Char.ofNat 32]) state.data1

/-- The operator `detail::operator>>` for a state: `s = temp` copies the two words. -/
def Xoroshiro128PlusState.read (is : IStream) (temp0 state : Xoroshiro128PlusState) :
    IStream × Xoroshiro128PlusState :=
  let r := read_xoroshiro128plus_state is temp0
  (r.1, match r.2 with
    | some temp => temp
    | none => state)

/-- The operator `operator<<` for a generator. -/
def Xoroshiro128Plus.write {D : Nat} (os : List Char) (xs : Xoroshiro128Plus D) : List Char :=
  xs.state.write os

/-- The operator `operator>>` for a generator: `s = temp` is the assignment from a state, which
goes through `assign_` and so through validation. -/
def Xoroshiro128Plus.read (SplitMix64 : Nat → Nat → Nat) {D : Nat} (fuel : Nat) (is : IStream)
    (temp0 : Xoroshiro128PlusState) (xs : Xoroshiro128Plus D) :
    Option (IStream × Xoroshiro128Plus D) :=
  let r := read_xoroshiro128plus_state is temp0
  match r.2 with
  | some temp => (assign_ SplitMix64 D fuel temp false xs).map (fun g => (r.1, g))
  | none => some (r.1, xs)

/-! ## Linear algebra of the transition

The transition of `operator()` is linear over the two-element field on the 128 state bits.
A polynomial over that field is a natural number, bit `k` being the coefficient of `x^k`. -/

/-- Word-wise XOR of two states. -/
def Xoroshiro128PlusState.xor (a b : Xoroshiro128PlusState) : Xoroshiro128PlusState :=
  ⟨a.data0 ^^^ b.data0, a.data1 ^^^ b.data1⟩

/-- The state transition of `operator()`. -/
def Xoroshiro128PlusState.step (s : Xoroshiro128PlusState) : Xoroshiro128PlusState :=
  (Xoroshiro128Plus.next (⟨s⟩ : Xoroshiro128Plus 0)).2.state

/-- The state `(0, 0)`. -/
def Xoroshiro128PlusState.zero : Xoroshiro128PlusState := ⟨0, 0⟩

/-- The value of the polynomial with coefficient list `bits`, lowest first, at the transition,
applied to `s`: the XOR of the `k`-th iterates of `s` over the `k` with `bits[k]` set. -/
def evL : List Bool → Xoroshiro128PlusState → Xoroshiro128PlusState
  | [], _ => Xoroshiro128PlusState.zero
  | b :: bs, s => (if b then s else Xoroshiro128PlusState.zero).xor (evL bs s.step)

/-- The state `s` for `b = 1` and the state `(0, 0)` for `b = 0`. -/
def Xoroshiro128PlusState.scale (s : Xoroshiro128PlusState) (b : Nat) : Xoroshiro128PlusState :=
  ⟨b * s.data0, b * s.data1⟩

/-- The same for the polynomial whose coefficients are the `n` low bits of `p`. -/
def evN : Nat → Nat → Xoroshiro128PlusState → Xoroshiro128PlusState
  | 0, _, _ => Xoroshiro128PlusState.zero
  | n + 1, p, s => (s.scale (p % 2)).xor (evN n (p / 2) s.step)

/-- Carry-less product of the `n` low bits of `p` with `q`. -/
def clmul : Nat → Nat → Nat → Nat
  | 0, _, _ => 0
  | n + 1, p, q => ((p % 2) * q) ^^^ (2 * clmul n (p / 2) q)

/-- The characteristic polynomial of the transition, bit `k` being the coefficient of `x^k`. -/
def char_poly : Nat := 0x100653ced7f29f88a5fd66762f0e1c001

/-- Cancels the coefficients of `x^(128+n-1)`, ..., `x^128` of `p` with multiples of
`char_poly`. -/
def pmod : Nat → Nat → Nat
  | 0, p => p
  | n + 1, p => pmod n (p ^^^ ((p / 2 ^ (128 + n) % 2) * (char_poly * 2 ^ n)))

/-- The polynomial `x^e` reduced by `char_poly`, by repeated squaring; `none` when the fuel is
short or an intermediate result is not reduced. -/
def xpow : Nat → Nat → Option Nat
  | 0, e => if e = 0 then some 1 else none
  | f + 1, e =>
    if e = 0 then some 1
    else match xpow f (e / 2) with
      | none => none
      | some r =>
        if r < 2 ^ 128 then
          some (if e % 2 = 1 then pmod 1 (2 * pmod 128 (clmul 128 r r))
            else pmod 128 (clmul 128 r r))
        else none

/-- The jump polynomial: `jump_data[0]` in bits 0..63 and `jump_data[1]` in bits 64..127. -/
def jump_poly : Nat := 0xbeac0467eba5facb + 2 ^ 64 * 0xd86b048b86aa9922

/-- The value of the polynomial `p` at the transition, applied to `s`. -/
def Ev (p : Nat) (s : Xoroshiro128PlusState) : Xoroshiro128PlusState := evN p p s

/-- The coefficient list read by the inner loop of `jump()` for word `i`. -/
def jump_bits (i : Nat) : List Bool :=
  (List.range (8 * 8)).map (fun b => decide (jump_data.getD i 0 &&& (1 <<< b) ≠ 0))

/-- Prime factors of `2^128 - 1` whose product exceeds `2^64`, each with the inverse, modulo
`char_poly`, of the polynomial `x^((2^128 - 1) / p) + 1`. -/
def cofactor_table : List (Nat × Nat) :=
  [(641, 0xa7e437605ed5e3ae3e409dba24fc1dcd),
   (65537, 0xecb57a9ef6f5a6fff4387293b32f3b0c),
   (274177, 0xe9e260cf9faf324aeb4d0d5da638cf50),
   (6700417, 0x14ca8334099b25f5a6585d516b1fd6f1)]

/-- Checks that `h` is the inverse of `x^((2^128 - 1) / p) + 1` modulo `char_poly`. -/
def cofactor_check (p h : Nat) : Bool :=
  match xpow 128 ((2 ^ 128 - 1) / p) with
  | some r => decide (h < 2 ^ 128) && decide (pmod 128 (clmul 128 h (r ^^^ 1)) = 1)
  | none => false

/-- The word-wise XOR, over the `k` in `ks`, of the `k`-th iterate of the transition on `s`. -/
def xor_iterates (ks : List Nat) (s : Xoroshiro128PlusState) : Xoroshiro128PlusState :=
  (ks.map (fun k => Xoroshiro128PlusState.step^[k] s)).foldr Xoroshiro128PlusState.xor
    Xoroshiro128PlusState.zero

/-- The value of the little-endian concatenation of the `w`-byte words `vs`, first word
lowest. -/
def concat_le (w : Nat) (vs : List Nat) : Nat :=
  vs.foldr (fun v acc => v + 2 ^ (8 * w) * acc) 0

/-- Reading from `is` into the generator `g` reports failure and leaves `g` as it was. -/
def ReadFails (SplitMix64 : Nat → Nat → Nat) {D : Nat} (fuel : Nat) (is : IStream)
    (temp0 : Xoroshiro128PlusState) (g : Xoroshiro128Plus D) : Prop :=
  ∃ is', Xoroshiro128Plus.read SplitMix64 fuel is temp0 g = some (is', g) ∧ is'.ok = false

/-! ## The step and its rotation -/

theorem rot_left_eq_rotl64 (x k : Nat) (hx : x < 2 ^ 64) (hk : k < 64) :
    rot_left_ x k = rotl64 x k := by
  unfold rot_left_ rotl64
  simp only [BitVec.rotateLeft, BitVec.rotateLeftAux, BitVec.toNat_or, BitVec.toNat_shiftLeft,
    BitVec.toNat_ushiftRight, BitVec.toNat_ofNat, Nat.mod_eq_of_lt hx, Nat.mod_eq_of_lt hk]

/-- C1: for a state of two 64-bit words, `operator()` returns `(s0 + s1) mod 2^64` and leaves
the state `(rotl64(s0,55) XOR t XOR ((t << 14) mod 2^64), rotl64(t,36))` with `t = s0 XOR s1`. -/
theorem next_spec (D : Nat) (g : Xoroshiro128Plus D) (hg : g.state.WF) :
    g.next.1 = (g.data0 + g.data1) % 2 ^ 64 ∧
    g.next.2.state =
      ⟨rotl64 g.data0 55 ^^^ (g.data0 ^^^ g.data1) ^^^ (((g.data0 ^^^ g.data1) <<< 14) % 2 ^ 64),
       rotl64 (g.data0 ^^^ g.data1) 36⟩ := by
  have h0 : g.data0 < 2 ^ 64 := hg.1
  have h1 : g.data1 < 2 ^ 64 := hg.2
  have ht : g.data1 ^^^ g.data0 < 2 ^ 64 := Nat.xor_lt_two_pow h1 h0
  refine ⟨rfl, ?_⟩
  simp only [Xoroshiro128Plus.next, Xoroshiro128Plus.state]
  rw [rot_left_eq_rotl64 _ 55 h0 (by decide), rot_left_eq_rotl64 _ 36 ht (by decide),
    Nat.xor_comm g.data1 g.data0]

theorem next_spec_witness :
    (⟨⟨1, 2 ^ 63⟩⟩ : Xoroshiro128Plus 7).next.1 = (1 + 2 ^ 63) % 2 ^ 64 ∧
    (⟨⟨1, 2 ^ 63⟩⟩ : Xoroshiro128Plus 7).next.2.state =
      ⟨rotl64 1 55 ^^^ (1 ^^^ 2 ^ 63) ^^^ (((1 ^^^ 2 ^ 63) <<< 14) % 2 ^ 64),
       rotl64 (1 ^^^ 2 ^ 63) 36⟩ :=
  next_spec 7 ⟨⟨1, 2 ^ 63⟩⟩ (by decide)

/-! ## Loops -/

theorem discard_eq_iterate {D : Nat} (n : Nat) (g : Xoroshiro128Plus D) :
    g.discard n = (fun x : Xoroshiro128Plus D => x.next.2)^[n] g := by
  induction n generalizing g with
  | zero => rfl
  | succ n ih => simp only [Function.iterate_succ, Function.comp_apply, ← ih]; rfl

/-- C4: `discard(n)` leaves the state reached by `n` calls of `operator()` whose results are
ignored, and `discard(0)` leaves the state as it is. -/
theorem discard_spec (D n : Nat) (g : Xoroshiro128Plus D) :
    (Xoroshiro128Plus.discard n g).state
        = ((fun x : Xoroshiro128Plus D => x.next.2)^[n] g).state ∧
      (Xoroshiro128Plus.discard 0 g).state = g.state := by
  rw [discard_eq_iterate]
  exact ⟨rfl, rfl⟩

/-- C6: `jump(n)` leaves the state reached by `n` applications of `jump()`, and `jump(0)` leaves
the state as it is. -/
theorem jumpN_spec (D n : Nat) (g : Xoroshiro128Plus D) :
    (Xoroshiro128Plus.jumpN n g).state = (Xoroshiro128Plus.jump^[n] g).state ∧
      (Xoroshiro128Plus.jumpN 0 g).state = g.state := by
  refine ⟨?_, rfl⟩
  induction n generalizing g with
  | zero => rfl
  | succ n ih => simp only [Function.iterate_succ, Function.comp_apply, ← ih]; rfl

/-! ## Comparison -/

/-- C8: `a == b` holds exactly when both words agree, `a != b` is its negation, and the default
seeds `S` and `T` of the two generators play no part. -/
theorem eq_spec (S T : Nat) (a : Xoroshiro128Plus S) (b : Xoroshiro128Plus T) :
    (a.eq b = true ↔ a.data0 = b.data0 ∧ a.data1 = b.data1) ∧ a.ne b = !(a.eq b) := by
  refine ⟨?_, rfl⟩
  simp only [Xoroshiro128Plus.eq, Xoroshiro128PlusState.eq, Xoroshiro128Plus.state]
  by_cases h0 : a.data0 = b.data0 <;> by_cases h1 : a.data1 = b.data1 <;> simp [h0, h1]

/-! ## Validation -/

theorem validate_of_not_isZero (SplitMix64 : Nat → Nat → Nat) (D fuel : Nat)
    (g : Xoroshiro128Plus D) (h : ¬ g.state.isZero) :
    validate_state_ SplitMix64 D fuel g = some g := by
  have h' : ¬ (g.data0 = 0 ∧ g.data1 = 0) := h
  cases fuel <;> unfold validate_state_ <;> by_cases h0 : g.data0 = 0 <;>
    by_cases h1 : g.data1 = 0 <;> simp_all

theorem seed_eq_validate (SplitMix64 : Nat → Nat → Nat) (D fuel s : Nat) :
    seed SplitMix64 D fuel s
      = validate_state_ SplitMix64 D fuel ⟨(seed_with_gen_same ⟨8, SplitMix64 s, 0⟩).1⟩ := by
  simp [seed, seed_gen_, Option.map_map, Function.comp_def]

theorem validate_of_isZero (SplitMix64 : Nat → Nat → Nat) (D fuel : Nat)
    (g : Xoroshiro128Plus D) (h : g.state.isZero) :
    validate_state_ SplitMix64 D (fuel + 1) g = seed SplitMix64 D fuel D := by
  have h0 : g.data0 = 0 := h.1
  have h1 : g.data1 = 0 := h.2
  rw [seed_eq_validate, validate_state_]
  simp [h0, h1]

theorem validatedFrom_validate (SplitMix64 : Nat → Nat → Nat) (D : Nat)
    (raw : Xoroshiro128PlusState) :
    ValidatedFrom SplitMix64 D (fun fuel => validate_state_ SplitMix64 D fuel ⟨raw⟩) raw :=
  fun fuel => ⟨fun h => validate_of_not_isZero SplitMix64 D fuel ⟨raw⟩ h,
    fun h => validate_of_isZero SplitMix64 D fuel ⟨raw⟩ h⟩

theorem seed_with_gen_same_words (out : Nat → Nat) :
    (seed_with_gen_same ⟨8, out, 0⟩).1 = ⟨out 0 % 2 ^ 64, out 1 % 2 ^ 64⟩ := by
  simp [seed_with_gen_same, Generator.call]

/-- C9: every seeding path ends in validation of its raw words.  Raw words that are not both
zero are the final state as they are (a raw state is copied, not expanded again); when both are
zero the run is that of `seed(default_seed)`.  Self-assignment changes nothing. -/
theorem seeding_validated (SplitMix64 : Nat → Nat → Nat) (D : Nat) :
    (∀ v : Nat, ValidatedFrom SplitMix64 D (fun fuel => seed SplitMix64 D fuel v)
      ⟨SplitMix64 v 0 % 2 ^ 64, SplitMix64 v 1 % 2 ^ 64⟩) ∧
    (∀ sseq : SeedSeq, ValidatedFrom SplitMix64 D (fun fuel => seed_sseq_ SplitMix64 D fuel sseq)
      (memcpy_data 4 [sseq.generate 4 0 % 2 ^ 32, sseq.generate 4 1 % 2 ^ 32,
        sseq.generate 4 2 % 2 ^ 32, sseq.generate 4 3 % 2 ^ 32])) ∧
    (∀ gen : Generator, ValidatedFrom SplitMix64 D
      (fun fuel => (seed_gen_ SplitMix64 D fuel gen).map Prod.fst)
      (if gen.result_size = 8 then seed_with_gen_same gen else seed_with_gen_diff gen).1) ∧
    (∀ (other : Xoroshiro128PlusState) (g : Xoroshiro128Plus D), ValidatedFrom SplitMix64 D
      (fun fuel => assign_ SplitMix64 D fuel other false g) other) ∧
    (∀ (fuel : Nat) (other : Xoroshiro128PlusState) (g : Xoroshiro128Plus D),
      assign_ SplitMix64 D fuel other true g = some g) := by
  refine ⟨fun v => ?_, fun sseq => ?_, fun gen => ?_, fun other g => ?_, fun _ _ _ => rfl⟩
  · have h := validatedFrom_validate SplitMix64 D ⟨SplitMix64 v 0 % 2 ^ 64, SplitMix64 v 1 % 2 ^ 64⟩
    simpa only [seed_eq_validate, seed_with_gen_same_words] using h
  · exact validatedFrom_validate SplitMix64 D _
  · have h := validatedFrom_validate SplitMix64 D
      (if gen.result_size = 8 then seed_with_gen_same gen else seed_with_gen_diff gen).1
    have e : ∀ fuel, (seed_gen_ SplitMix64 D fuel gen).map Prod.fst
        = validate_state_ SplitMix64 D fuel
            ⟨(if gen.result_size = 8 then seed_with_gen_same gen
              else seed_with_gen_diff gen).1⟩ := by
      intro fuel
      simp [seed_gen_, Option.map_map, Function.comp_def]
    simpa only [e] using h
  · exact validatedFrom_validate SplitMix64 D other

theorem validate_some (SplitMix64 : Nat → Nat → Nat) (D fuel : Nat) (g a : Xoroshiro128Plus D)
    (h : validate_state_ SplitMix64 D fuel g = some a) :
    (¬ g.state.isZero ∧ a = g) ∨
      (g.state.isZero ∧ ¬ (seed_with_gen_same ⟨8, SplitMix64 D, 0⟩).1.isZero ∧
        a = ⟨(seed_with_gen_same ⟨8, SplitMix64 D, 0⟩).1⟩) := by
  induction fuel generalizing g with
  | zero =>
    by_cases hz : g.state.isZero
    · have h0 : g.data0 = 0 := hz.1
      have h1 : g.data1 = 0 := hz.2
      simp [validate_state_, h0, h1] at h
    · rw [validate_of_not_isZero _ _ _ _ hz] at h
      exact Or.inl ⟨hz, (Option.some.inj h).symm⟩
  | succ fuel ih =>
    by_cases hz : g.state.isZero
    · have h0 : g.data0 = 0 := hz.1
      have h1 : g.data1 = 0 := hz.2
      simp only [validate_state_, h0, h1, ne_eq, not_true_eq_false, if_false] at h
      rcases ih _ h with ⟨hn, ha⟩ | ⟨hy, hn, _⟩
      · exact Or.inr ⟨hz, hn, ha⟩
      · exact absurd hy hn
    · rw [validate_of_not_isZero _ _ _ _ hz] at h
      exact Or.inl ⟨hz, (Option.some.inj h).symm⟩

theorem validate_unique (SplitMix64 : Nat → Nat → Nat) (D f1 f2 : Nat)
    (g a b : Xoroshiro128Plus D) (ha : validate_state_ SplitMix64 D f1 g = some a)
    (hb : validate_state_ SplitMix64 D f2 g = some b) : a = b := by
  rcases validate_some _ _ _ _ _ ha with ⟨h1, e1⟩ | ⟨h1, _, e1⟩ <;>
    rcases validate_some _ _ _ _ _ hb with ⟨h2, e2⟩ | ⟨h2, _, e2⟩
  · rw [e1, e2]
  · exact absurd h2 h1
  · exact absurd h1 h2
  · rw [e1, e2]

/-! ## Determinism -/

theorem outputs_congr {S T : Nat} (a : Xoroshiro128Plus S) (b : Xoroshiro128Plus T)
    (h : a.state = b.state) (n : Nat) : a.outputs n = b.outputs n := by
  induction n generalizing a b with
  | zero => rfl
  | succ n ih =>
    have h' : a.toXoroshiro128PlusState = b.toXoroshiro128PlusState := h
    have e1 : a.next.1 = b.next.1 := by simp only [Xoroshiro128Plus.next, h']
    have e2 : a.next.2.state = b.next.2.state := by
      simp only [Xoroshiro128Plus.next, Xoroshiro128Plus.state, h']
    simp only [Xoroshiro128Plus.outputs, e1, ih _ _ e2]

/-- C7: two generators of equal state, whatever their default seeds `S` and `T`, return the same
value from `operator()` and are left in equal states, so their output sequences agree at every
length; and two generators seeded with the same integer give the same output sequences (for
different default seeds, as long as the integer does not expand to two zero words). -/
theorem determinism (SplitMix64 : Nat → Nat → Nat) (S T : Nat) :
    (∀ (a : Xoroshiro128Plus S) (b : Xoroshiro128Plus T), a.state = b.state →
      a.next.1 = b.next.1 ∧ a.next.2.state = b.next.2.state ∧
        ∀ n : Nat, a.outputs n = b.outputs n) ∧
    (∀ (v f1 f2 : Nat) (a b : Xoroshiro128Plus S), seed SplitMix64 S f1 v = some a →
      seed SplitMix64 S f2 v = some b → ∀ n : Nat, a.outputs n = b.outputs n) ∧
    (∀ (v f1 f2 : Nat) (a : Xoroshiro128Plus S) (b : Xoroshiro128Plus T),
      ¬ (⟨SplitMix64 v 0 % 2 ^ 64, SplitMix64 v 1 % 2 ^ 64⟩ : Xoroshiro128PlusState).isZero →
      seed SplitMix64 S f1 v = some a → seed SplitMix64 T f2 v = some b →
      ∀ n : Nat, a.outputs n = b.outputs n) := by
  refine ⟨fun a b h => ?_, fun v f1 f2 a b ha hb n => ?_, fun v f1 f2 a b hv ha hb n => ?_⟩
  · have h' : a.toXoroshiro128PlusState = b.toXoroshiro128PlusState := h
    refine ⟨?_, ?_, outputs_congr a b h⟩
    · simp only [Xoroshiro128Plus.next, h']
    · simp only [Xoroshiro128Plus.next, Xoroshiro128Plus.state, h']
  · rw [seed_eq_validate] at ha hb
    rw [validate_unique _ _ _ _ _ _ _ ha hb]
  · rw [seed_eq_validate, seed_with_gen_same_words,
      validate_of_not_isZero SplitMix64 _ _ _ hv] at ha hb
    apply outputs_congr
    rw [← Option.some.inj ha, ← Option.some.inj hb]
    rfl

/-! ## Bits of the transition -/

theorem testBit_rot_left_ (x k i : Nat) :
    (rot_left_ x k).testBit i
      = ((decide (i < 64) && (decide (k ≤ i) && x.testBit (i - k))) || x.testBit (64 - k + i)) := by
  unfold rot_left_
  rw [Nat.testBit_or, Nat.testBit_mod_two_pow, Nat.testBit_shiftLeft, Nat.testBit_shiftRight]

theorem testBit_high (x i : Nat) (hx : x < 2 ^ 64) (hi : 64 ≤ i) : x.testBit i = false :=
  Nat.testBit_eq_false_of_lt (lt_of_lt_of_le hx (Nat.pow_le_pow_right (by decide) hi))

theorem rot_left_xor (x y k : Nat) (hx : x < 2 ^ 64) (hy : y < 2 ^ 64) (hk : k ≤ 64) :
    rot_left_ (x ^^^ y) k = rot_left_ x k ^^^ rot_left_ y k := by
  apply Nat.eq_of_testBit_eq
  intro i
  simp only [Nat.testBit_xor, testBit_rot_left_]
  by_cases h : i < 64 ∧ k ≤ i
  · have h64 : 64 ≤ 64 - k + i := by omega
    simp [testBit_high x _ hx h64, testBit_high y _ hy h64, h.1, h.2]
  · have : (decide (i < 64) && decide (k ≤ i)) = false := by
      simp only [Bool.and_eq_false_imp, decide_eq_true_eq, decide_eq_false_iff_not]; omega
    simp [← Bool.and_assoc, this]

theorem rot_left_lt (x k : Nat) (hx : x < 2 ^ 64) : rot_left_ x k < 2 ^ 64 := by
  apply Nat.lt_pow_two_of_testBit
  intro i hi
  rw [testBit_rot_left_]
  have : ¬ i < 64 := by omega
  simp [this, testBit_high x _ hx (by omega : 64 ≤ 64 - k + i)]

theorem rot_left_eq_zero (x k : Nat) (hx : x < 2 ^ 64) (hk : k ≤ 64)
    (h : rot_left_ x k = 0) : x = 0 := by
  apply Nat.eq_of_testBit_eq
  intro i
  rw [Nat.zero_testBit]
  by_cases hi : 64 ≤ i
  · exact testBit_high x i hx hi
  · by_cases hik : i + k < 64
    · have := congrArg (fun n => n.testBit (i + k)) h
      simp only [testBit_rot_left_, Nat.zero_testBit] at this
      simp only [hik, decide_True, Nat.le_add_left, Nat.add_sub_cancel, Bool.true_and,
        Bool.or_eq_false_iff] at this
      exact this.1
    · have := congrArg (fun n => n.testBit (i + k - 64)) h
      simp only [testBit_rot_left_, Nat.zero_testBit] at this
      have e : 64 - k + (i + k - 64) = i := by omega
      rw [e] at this
      simp at this
      exact this.2

theorem shl14_xor (x y : Nat) :
    ((x ^^^ y) <<< 14) % 2 ^ 64 = ((x <<< 14) % 2 ^ 64) ^^^ ((y <<< 14) % 2 ^ 64) := by
  apply Nat.eq_of_testBit_eq
  intro i
  rw [Nat.testBit_xor, Nat.testBit_mod_two_pow, Nat.testBit_mod_two_pow, Nat.testBit_mod_two_pow,
    Nat.testBit_shiftLeft, Nat.testBit_shiftLeft, Nat.testBit_shiftLeft, Nat.testBit_xor]
  cases decide (i < 64) <;> cases decide (i ≥ 14) <;> simp

theorem step_def (s : Xoroshiro128PlusState) :
    s.step = ⟨rot_left_ s.data0 55 ^^^ (s.data1 ^^^ s.data0)
        ^^^ (((s.data1 ^^^ s.data0) <<< 14) % 2 ^ 64), rot_left_ (s.data1 ^^^ s.data0) 36⟩ := rfl

theorem next_snd {D : Nat} (g : Xoroshiro128Plus D) : g.next.2 = ⟨g.state.step⟩ := rfl

theorem step_WF (s : Xoroshiro128PlusState) (h : s.WF) : s.step.WF := by
  have ht : s.data1 ^^^ s.data0 < 2 ^ 64 := Nat.xor_lt_two_pow h.2 h.1
  rw [step_def]
  exact ⟨Nat.xor_lt_two_pow (Nat.xor_lt_two_pow (rot_left_lt _ _ h.1) ht)
    (Nat.mod_lt _ (by decide)), rot_left_lt _ _ ht⟩

theorem xor_WF (a b : Xoroshiro128PlusState) (ha : a.WF) (hb : b.WF) : (a.xor b).WF :=
  ⟨Nat.xor_lt_two_pow ha.1 hb.1, Nat.xor_lt_two_pow ha.2 hb.2⟩

theorem step_xor (a b : Xoroshiro128PlusState) (ha : a.WF) (hb : b.WF) :
    (a.xor b).step = a.step.xor b.step := by
  have hta : a.data1 ^^^ a.data0 < 2 ^ 64 := Nat.xor_lt_two_pow ha.2 ha.1
  have htb : b.data1 ^^^ b.data0 < 2 ^ 64 := Nat.xor_lt_two_pow hb.2 hb.1
  have et : (a.data1 ^^^ b.data1) ^^^ (a.data0 ^^^ b.data0)
      = (a.data1 ^^^ a.data0) ^^^ (b.data1 ^^^ b.data0) := by ac_rfl
  simp only [step_def, Xoroshiro128PlusState.xor, et, shl14_xor,
    rot_left_xor _ _ 55 ha.1 hb.1 (by decide), rot_left_xor _ _ 36 hta htb (by decide)]
  congr 1
  ac_rfl

theorem step_zero : Xoroshiro128PlusState.zero.step = Xoroshiro128PlusState.zero := by decide

theorem step_eq_zero (s : Xoroshiro128PlusState) (h : s.WF)
    (hz : s.step = Xoroshiro128PlusState.zero) : s = Xoroshiro128PlusState.zero := by
  have ht : s.data1 ^^^ s.data0 < 2 ^ 64 := Nat.xor_lt_two_pow h.2 h.1
  rw [step_def] at hz
  have h1 : rot_left_ (s.data1 ^^^ s.data0) 36 = 0 := congrArg Xoroshiro128PlusState.data1 hz
  have h0 := congrArg Xoroshiro128PlusState.data0 hz
  have t0 : s.data1 ^^^ s.data0 = 0 := rot_left_eq_zero _ 36 ht (by decide) h1
  simp only [t0, Xoroshiro128PlusState.zero] at h0
  have e0 : s.data0 = 0 := rot_left_eq_zero _ 55 h.1 (by decide) (by simpa using h0)
  have e1 : s.data1 = 0 := by simpa [e0] using t0
  cases s
  simp_all [Xoroshiro128PlusState.zero]

theorem xor_self (a : Xoroshiro128PlusState) : a.xor a = Xoroshiro128PlusState.zero := by
  simp [Xoroshiro128PlusState.xor, Xoroshiro128PlusState.zero]

theorem xor_zero (a : Xoroshiro128PlusState) : a.xor Xoroshiro128PlusState.zero = a := by
  simp [Xoroshiro128PlusState.xor, Xoroshiro128PlusState.zero]

theorem zero_xor (a : Xoroshiro128PlusState) : Xoroshiro128PlusState.zero.xor a = a := by
  simp [Xoroshiro128PlusState.xor, Xoroshiro128PlusState.zero]

theorem xor_eq_zero (a b : Xoroshiro128PlusState) (h : a.xor b = Xoroshiro128PlusState.zero) :
    a = b := by
  have h0 : a.data0 ^^^ b.data0 = 0 := congrArg Xoroshiro128PlusState.data0 h
  have h1 : a.data1 ^^^ b.data1 = 0 := congrArg Xoroshiro128PlusState.data1 h
  cases a; cases b
  simp only [Nat.xor_eq_zero] at h0 h1
  simp_all

theorem step_injective (a b : Xoroshiro128PlusState) (ha : a.WF) (hb : b.WF)
    (h : a.step = b.step) : a = b := by
  apply xor_eq_zero
  apply step_eq_zero _ (xor_WF a b ha hb)
  rw [step_xor a b ha hb, h, xor_self]

/-! ## Polynomials in the transition -/

theorem mod_two_mul (p x : Nat) : (p % 2) * x = if p.testBit 0 then x else 0 := by
  rw [Nat.testBit_zero]
  rcases Nat.mod_two_eq_zero_or_one p with h | h <;> simp [h]

theorem evN_succ (n p : Nat) (s : Xoroshiro128PlusState) :
    evN (n + 1) p s
      = (if p.testBit 0 then s else Xoroshiro128PlusState.zero).xor (evN n (p / 2) s.step) := by
  have e : s.scale (p % 2) = if p.testBit 0 then s else Xoroshiro128PlusState.zero := by
    simp only [Xoroshiro128PlusState.scale, mod_two_mul]
    cases p.testBit 0 <;> simp [Xoroshiro128PlusState.zero]
  rw [evN, e]

theorem clmul_succ (n p q : Nat) :
    clmul (n + 1) p q = (if p.testBit 0 then q else 0) ^^^ (2 * clmul n (p / 2) q) := by
  rw [clmul, mod_two_mul]

theorem pmod_succ (n p : Nat) :
    pmod (n + 1) p = pmod n (if p.testBit (128 + n) then p ^^^ (char_poly <<< n) else p) := by
  rw [pmod, Nat.shiftLeft_eq]
  congr 1
  have e : p / 2 ^ (128 + n) % 2 = if p.testBit (128 + n) then 1 else 0 := by
    rw [Nat.testBit, ← Nat.shiftRight_eq_div_pow, Nat.one_and_eq_mod_two]
    rcases Nat.mod_two_eq_zero_or_one (p >>> (128 + n)) with h | h <;> simp [h]
  rw [e]
  cases p.testBit (128 + n) <;> simp

theorem xor_xor_xor_comm (a b c d : Xoroshiro128PlusState) :
    (a.xor b).xor (c.xor d) = (a.xor c).xor (b.xor d) := by
  simp only [Xoroshiro128PlusState.xor, Xoroshiro128PlusState.mk.injEq]
  constructor <;> ac_rfl

theorem xor_assoc (a b c : Xoroshiro128PlusState) : (a.xor b).xor c = a.xor (b.xor c) := by
  simp only [Xoroshiro128PlusState.xor, Xoroshiro128PlusState.mk.injEq]
  constructor <;> ac_rfl

theorem zero_WF : Xoroshiro128PlusState.zero.WF := by decide

theorem iterate_step_WF (n : Nat) (s : Xoroshiro128PlusState) (h : s.WF) :
    (Xoroshiro128PlusState.step^[n] s).WF := by
  induction n generalizing s with
  | zero => exact h
  | succ n ih => exact ih _ (step_WF s h)

theorem ite_WF (b : Bool) (s : Xoroshiro128PlusState) (h : s.WF) :
    (if b then s else Xoroshiro128PlusState.zero).WF := by
  cases b
  · exact zero_WF
  · exact h

theorem evN_zero_left (n : Nat) (s : Xoroshiro128PlusState) :
    evN n 0 s = Xoroshiro128PlusState.zero := by
  induction n generalizing s with
  | zero => rfl
  | succ n ih => simp [evN_succ, ih, xor_zero]

theorem evN_add (n k p : Nat) (s : Xoroshiro128PlusState) (hp : p < 2 ^ n) :
    evN (n + k) p s = evN n p s := by
  induction n generalizing p s with
  | zero =>
    have : p = 0 := by simpa using hp
    subst this
    rw [evN_zero_left, evN_zero_left]
  | succ n ih =>
    have h2 : p / 2 < 2 ^ n := by
      rw [Nat.div_lt_iff_lt_mul (by decide)]
      rwa [Nat.pow_succ] at hp
    have e : n + 1 + k = (n + k) + 1 := by omega
    rw [e]
    simp only [evN_succ, ih _ _ h2]

theorem evN_of_le (n m p : Nat) (s : Xoroshiro128PlusState) (hp : p < 2 ^ n) (hnm : n ≤ m) :
    evN m p s = evN n p s := by
  obtain ⟨k, rfl⟩ := Nat.exists_eq_add_of_le hnm
  exact evN_add n k p s hp

theorem evN_eq_self (n p : Nat) (s : Xoroshiro128PlusState) (hp : p < 2 ^ n) :
    evN n p s = evN p p s := by
  rcases Nat.le_total n p with h | h
  · exact (evN_of_le n p p s hp h).symm
  · exact evN_of_le p n p s (Nat.lt_two_pow p) h

theorem xor_div_two (p q : Nat) : (p ^^^ q) / 2 = p / 2 ^^^ q / 2 := by
  apply Nat.eq_of_testBit_eq
  intro i
  simp only [Nat.testBit_xor, ← Nat.testBit_succ]

theorem ite_xor (a b : Bool) (s : Xoroshiro128PlusState) :
    (if (a ^^ b) then s else Xoroshiro128PlusState.zero)
      = (if a then s else Xoroshiro128PlusState.zero).xor
          (if b then s else Xoroshiro128PlusState.zero) := by
  cases a <;> cases b <;> simp [xor_zero, zero_xor, xor_self]

theorem evN_xor (n p q : Nat) (s : Xoroshiro128PlusState) :
    evN n (p ^^^ q) s = (evN n p s).xor (evN n q s) := by
  induction n generalizing p q s with
  | zero => simp [evN, xor_zero]
  | succ n ih =>
    simp only [evN_succ, Nat.testBit_xor, xor_div_two, ih, ite_xor]
    exact xor_xor_xor_comm _ _ _ _

theorem evN_double (n p : Nat) (s : Xoroshiro128PlusState) :
    evN (n + 1) (2 * p) s = evN n p s.step := by
  have h0 : (2 * p).testBit 0 = false := by simp [Nat.testBit_zero]
  have h1 : 2 * p / 2 = p := by omega
  simp only [evN_succ, h0, h1, zero_xor, Bool.false_eq_true, if_false]

theorem evN_WF (n p : Nat) (s : Xoroshiro128PlusState) (h : s.WF) : (evN n p s).WF := by
  induction n generalizing p s with
  | zero => exact zero_WF
  | succ n ih =>
    rw [evN_succ]
    exact xor_WF _ _ (ite_WF _ s h) (ih _ _ (step_WF s h))

theorem ite_step (b : Bool) (s : Xoroshiro128PlusState) :
    (if b then s else Xoroshiro128PlusState.zero).step
      = (if b then s.step else Xoroshiro128PlusState.zero) := by
  cases b
  · exact step_zero
  · rfl

theorem evN_step (n p : Nat) (s : Xoroshiro128PlusState) (h : s.WF) :
    evN n p s.step = (evN n p s).step := by
  induction n generalizing p s with
  | zero => exact step_zero.symm
  | succ n ih =>
    simp only [evN_succ]
    rw [step_xor _ _ (ite_WF _ s h) (evN_WF _ _ _ (step_WF s h)), ite_step,
      ih _ _ (step_WF s h)]

theorem evN_xor_state (n p : Nat) (a b : Xoroshiro128PlusState) (ha : a.WF) (hb : b.WF) :
    evN n p (a.xor b) = (evN n p a).xor (evN n p b) := by
  induction n generalizing p a b with
  | zero => simp [evN, xor_zero]
  | succ n ih =>
    simp only [evN_succ]
    rw [step_xor a b ha hb, ih _ _ _ (step_WF a ha) (step_WF b hb)]
    cases p.testBit 0
    · simp [zero_xor]
    · simp only [if_true]
      exact xor_xor_xor_comm _ _ _ _

theorem evN_zero_right (n p : Nat) : evN n p Xoroshiro128PlusState.zero
    = Xoroshiro128PlusState.zero := by
  induction n generalizing p with
  | zero => rfl
  | succ n ih => simp [evN_succ, step_zero, ih, xor_zero]

theorem evN_shiftLeft (n k p : Nat) (s : Xoroshiro128PlusState) :
    evN (n + k) (p <<< k) s = evN n p (Xoroshiro128PlusState.step^[k] s) := by
  induction k generalizing s with
  | zero => rfl
  | succ k ih =>
    rw [Nat.shiftLeft_succ, ← Nat.add_assoc, evN_double, ih, Function.iterate_succ_apply]

theorem clmul_lt (n m p q : Nat) (hq : q < 2 ^ m) : clmul n p q < 2 ^ (n + m) := by
  induction n generalizing p with
  | zero => simp [clmul]
  | succ n ih =>
    have e : 2 ^ (n + 1 + m) = 2 * 2 ^ (n + m) := by
      rw [show n + 1 + m = (n + m) + 1 by omega, Nat.pow_succ, Nat.mul_comm]
    have hle : 2 ^ m ≤ 2 ^ (n + 1 + m) := Nat.pow_le_pow_right (by decide) (by omega)
    simp only [clmul_succ]
    apply Nat.xor_lt_two_pow
    · split
      · exact lt_of_lt_of_le hq hle
      · exact Nat.pow_pos (by decide)
    · rw [e]
      exact Nat.mul_lt_mul_of_pos_left (ih _) (by decide)

theorem evN_clmul (n m p q : Nat) (s : Xoroshiro128PlusState) (hq : q < 2 ^ m) (h : s.WF) :
    evN (n + m) (clmul n p q) s = evN n p (evN m q s) := by
  induction n generalizing p s with
  | zero => simp [clmul, evN, evN_zero_left]
  | succ n ih =>
    have e : n + 1 + m = (n + m) + 1 := by omega
    simp only [clmul_succ]
    rw [evN_xor, e, evN_double, ih _ _ (step_WF s h), evN_step _ _ _ h]
    rw [evN_succ n p]
    congr 1
    cases p.testBit 0
    · simp [evN_zero_left]
    · simp only [if_true]
      exact evN_of_le m _ q s hq (by omega)

theorem split_top_bit (a n : Nat) (ha : a < 2 ^ (n + 1)) :
    ∃ b, b < 2 ^ n ∧ (a = b ∨ a = b ^^^ 2 ^ n) := by
  have hhigh : ∀ i, n < i → a.testBit i = false := fun i hi =>
    Nat.testBit_eq_false_of_lt (lt_of_lt_of_le ha (Nat.pow_le_pow_right (by decide) hi))
  by_cases hb : a.testBit n = true
  · refine ⟨a ^^^ 2 ^ n, ?_, Or.inr (Nat.xor_cancel_right _ _).symm⟩
    apply Nat.lt_pow_two_of_testBit
    intro i hi
    rw [Nat.testBit_xor, Nat.testBit_two_pow]
    rcases Nat.eq_or_lt_of_le hi with h | h
    · subst h
      simp [hb]
    · have : ¬ n = i := by omega
      simp [hhigh i h, this]
  · refine ⟨a, ?_, Or.inl rfl⟩
    apply Nat.lt_pow_two_of_testBit
    intro i hi
    rcases Nat.eq_or_lt_of_le hi with h | h
    · subst h
      simpa using hb
    · exact hhigh i h

theorem linear_vanish_word (F : Nat → Xoroshiro128PlusState)
    (hlin : ∀ a b, a < 2 ^ 64 → b < 2 ^ 64 → F (a ^^^ b) = (F a).xor (F b))
    (hz : F 0 = Xoroshiro128PlusState.zero)
    (hb : ∀ i < 64, F (2 ^ i) = Xoroshiro128PlusState.zero) (n : Nat) (hn : n ≤ 64) :
    ∀ a, a < 2 ^ n → F a = Xoroshiro128PlusState.zero := by
  induction n with
  | zero =>
    intro a ha
    have : a = 0 := by simpa using ha
    rw [this, hz]
  | succ n ih =>
    intro a ha
    have hpow : 2 ^ n < 2 ^ 64 := Nat.pow_lt_pow_right (by decide) (by omega)
    obtain ⟨b, hb', hab | hab⟩ := split_top_bit a n ha
    · rw [hab]
      exact ih (by omega) b hb'
    · rw [hab, hlin b (2 ^ n) (lt_trans hb' hpow) hpow, ih (by omega) b hb', hb n (by omega),
        xor_zero]

theorem linear_vanish (F : Xoroshiro128PlusState → Xoroshiro128PlusState)
    (hlin : ∀ a b : Xoroshiro128PlusState, a.WF → b.WF → F (a.xor b) = (F a).xor (F b))
    (hz : F Xoroshiro128PlusState.zero = Xoroshiro128PlusState.zero)
    (hb : ∀ i < 64, F ⟨2 ^ i, 0⟩ = Xoroshiro128PlusState.zero ∧
      F ⟨0, 2 ^ i⟩ = Xoroshiro128PlusState.zero)
    (s : Xoroshiro128PlusState) (hs : s.WF) : F s = Xoroshiro128PlusState.zero := by
  have z64 : (0 : Nat) < 2 ^ 64 := by decide
  have h0 : F ⟨s.data0, 0⟩ = Xoroshiro128PlusState.zero := by
    refine linear_vanish_word (fun a => F ⟨a, 0⟩) ?_ hz (fun i hi => (hb i hi).1) 64
      (le_refl _) s.data0 hs.1
    intro a b ha hb'
    have := hlin ⟨a, 0⟩ ⟨b, 0⟩ ⟨ha, z64⟩ ⟨hb', z64⟩
    simpa [Xoroshiro128PlusState.xor] using this
  have h1 : F ⟨0, s.data1⟩ = Xoroshiro128PlusState.zero := by
    refine linear_vanish_word (fun a => F ⟨0, a⟩) ?_ hz (fun i hi => (hb i hi).2) 64
      (le_refl _) s.data1 hs.2
    intro a b ha hb'
    have := hlin ⟨0, a⟩ ⟨0, b⟩ ⟨z64, ha⟩ ⟨z64, hb'⟩
    simpa [Xoroshiro128PlusState.xor] using this
  have e : s = (⟨s.data0, 0⟩ : Xoroshiro128PlusState).xor ⟨0, s.data1⟩ := by
    cases s
    simp [Xoroshiro128PlusState.xor]
  have h := hlin ⟨s.data0, 0⟩ ⟨0, s.data1⟩ ⟨hs.1, z64⟩ ⟨z64, hs.2⟩
  rw [← e] at h
  rw [h, h0, h1, xor_zero]

theorem Ev_eq (n p : Nat) (s : Xoroshiro128PlusState) (hp : p < 2 ^ n) : Ev p s = evN n p s :=
  (evN_eq_self n p s hp).symm

theorem lt_two_pow_of_le (x n : Nat) (h : x ≤ n) : x < 2 ^ n :=
  lt_of_lt_of_le (Nat.lt_two_pow x) (Nat.pow_le_pow_right (by decide) h)

theorem Ev_xor (p q : Nat) (s : Xoroshiro128PlusState) :
    Ev (p ^^^ q) s = (Ev p s).xor (Ev q s) := by
  have hp : p < 2 ^ (p + q) := lt_two_pow_of_le _ _ (by omega)
  have hq : q < 2 ^ (p + q) := lt_two_pow_of_le _ _ (by omega)
  rw [Ev_eq (p + q) _ s (Nat.xor_lt_two_pow hp hq), Ev_eq _ _ s hp, Ev_eq _ _ s hq, evN_xor]

theorem Ev_shiftLeft (p k : Nat) (s : Xoroshiro128PlusState) :
    Ev (p <<< k) s = Ev p (Xoroshiro128PlusState.step^[k] s) := by
  have h : p <<< k < 2 ^ (p + k) := by
    rw [Nat.shiftLeft_eq, Nat.pow_add]
    exact Nat.mul_lt_mul_of_pos_right (Nat.lt_two_pow p) (Nat.pow_pos (by decide))
  rw [Ev_eq _ _ s h, evN_shiftLeft]
  rfl

theorem Ev_double (p : Nat) (s : Xoroshiro128PlusState) : Ev (2 * p) s = Ev p s.step := by
  have h : 2 * p < 2 ^ (p + 1) := by
    rw [Nat.pow_succ, Nat.mul_comm]
    exact Nat.mul_lt_mul_of_pos_right (Nat.lt_two_pow p) (by decide)
  rw [Ev_eq _ _ s h, evN_double]
  rfl

theorem Ev_clmul (n p q : Nat) (s : Xoroshiro128PlusState) (hp : p < 2 ^ n) (h : s.WF) :
    Ev (clmul n p q) s = Ev p (Ev q s) := by
  rw [Ev_eq _ _ s (clmul_lt n q p q (Nat.lt_two_pow q)), evN_clmul n q p q s (Nat.lt_two_pow q) h,
    Ev_eq n p _ hp]
  rfl

theorem Ev_one (s : Xoroshiro128PlusState) : Ev 1 s = s := by
  rw [Ev, evN_succ]
  simp [evN, xor_zero]

theorem Ev_WF (p : Nat) (s : Xoroshiro128PlusState) (h : s.WF) : (Ev p s).WF := evN_WF _ _ _ h

theorem Ev_zero_right (p : Nat) : Ev p Xoroshiro128PlusState.zero = Xoroshiro128PlusState.zero :=
  evN_zero_right _ _

theorem Ev_step (p : Nat) (s : Xoroshiro128PlusState) (h : s.WF) :
    Ev p s.step = (Ev p s).step := evN_step _ _ _ h

/-! ## Certificates checked by evaluation -/

set_option maxRecDepth 100000 in
theorem char_poly_basis : ∀ i < 64, evN 129 char_poly ⟨2 ^ i, 0⟩ = Xoroshiro128PlusState.zero ∧
    evN 129 char_poly ⟨0, 2 ^ i⟩ = Xoroshiro128PlusState.zero := by
  decide!

set_option maxRecDepth 100000 in
theorem xpow_jump : xpow 65 (2 ^ 64) = some jump_poly := by
  decide!

set_option maxRecDepth 100000 in
theorem xpow_order : xpow 129 (2 ^ 128 - 1) = some 1 := by
  decide!

theorem Ev_char_poly (s : Xoroshiro128PlusState) (h : s.WF) :
    Ev char_poly s = Xoroshiro128PlusState.zero := by
  rw [Ev_eq 129 _ s (by decide)]
  exact linear_vanish (evN 129 char_poly) (evN_xor_state 129 char_poly)
    (evN_zero_right 129 char_poly) char_poly_basis s h

theorem Ev_pmod (n p : Nat) (s : Xoroshiro128PlusState) (h : s.WF) :
    Ev (pmod n p) s = Ev p s := by
  induction n generalizing p with
  | zero => rfl
  | succ n ih =>
    simp only [pmod_succ]
    rw [ih]
    split
    · rw [Ev_xor, Ev_shiftLeft, Ev_char_poly _ (iterate_step_WF n s h), xor_zero]
    · rfl

theorem xpow_sound (f e r : Nat) (hr : xpow f e = some r) (s : Xoroshiro128PlusState)
    (h : s.WF) : Ev r s = Xoroshiro128PlusState.step^[e] s := by
  induction f generalizing e r s with
  | zero =>
    by_cases he : e = 0
    · simp only [xpow, he, if_true, Option.some.injEq] at hr
      rw [← hr, he, Ev_one]
      rfl
    · simp [xpow, he] at hr
  | succ f ih =>
    by_cases he : e = 0
    · simp only [xpow, he, if_true, Option.some.injEq] at hr
      rw [← hr, he, Ev_one]
      rfl
    · simp only [xpow, he, if_false] at hr
      cases h0 : xpow f (e / 2) with
      | none => simp [h0] at hr
      | some r0 =>
        simp only [h0] at hr
        by_cases hlt : r0 < 2 ^ 128
        · simp only [hlt, if_true, Option.some.injEq] at hr
          have hsq : ∀ t : Xoroshiro128PlusState, t.WF →
              Ev (pmod 128 (clmul 128 r0 r0)) t = Xoroshiro128PlusState.step^[e / 2 + e / 2] t := by
            intro t ht
            rw [Ev_pmod _ _ _ ht, Ev_clmul 128 r0 r0 t hlt ht, ih _ _ h0 _ (Ev_WF _ _ ht),
              ih _ _ h0 _ ht, ← Function.iterate_add_apply]
          by_cases hodd : e % 2 = 1
          · simp only [hodd, if_true] at hr
            rw [← hr, Ev_pmod _ _ _ h, Ev_double, hsq _ (step_WF s h),
              ← Function.iterate_succ_apply]
            congr 1
            omega
          · simp only [hodd, if_false] at hr
            rw [← hr, hsq _ h]
            congr 1
            omega
        · rw [if_neg hlt] at hr
          cases hr

/-! ## The jump as a polynomial in the transition -/

theorem evN_eq_evL (n p : Nat) (s : Xoroshiro128PlusState) :
    evN n p s = evL ((List.range n).map p.testBit) s := by
  induction n generalizing p s with
  | zero => rfl
  | succ n ih =>
    rw [List.range_succ_eq_map, List.map_cons, List.map_map]
    have e : p.testBit ∘ Nat.succ = (p / 2).testBit := by
      funext i
      simp [Nat.testBit_succ]
    rw [e, evL, evN_succ, ih]

theorem jump_bits_eq : jump_bits 0 ++ jump_bits 1 = (List.range 128).map jump_poly.testBit := by
  decide

theorem jump_inner {D : Nat} (i : Nat) (acc : Nat × Nat × Xoroshiro128Plus D) :
    (List.range (8 * 8)).foldl (jump_body i) acc
      = (jump_bits i).foldl (fun (a : Nat × Nat × Xoroshiro128Plus D) (b : Bool) =>
          if b then (a.1 ^^^ a.2.2.data0, a.2.1 ^^^ a.2.2.data1, a.2.2.next.2)
          else (a.1, a.2.1, a.2.2.next.2)) acc := by
  rw [jump_bits, List.foldl_map]
  congr 1
  funext a b
  simp only [jump_body]
  by_cases h : jump_data.getD i 0 &&& (1 <<< b) ≠ 0 <;> simp [h]

theorem jump_fold {D : Nat} (bits : List Bool) (a0 a1 : Nat) (g : Xoroshiro128Plus D) :
    bits.foldl (fun (a : Nat × Nat × Xoroshiro128Plus D) (b : Bool) =>
          if b then (a.1 ^^^ a.2.2.data0, a.2.1 ^^^ a.2.2.data1, a.2.2.next.2)
          else (a.1, a.2.1, a.2.2.next.2)) (a0, a1, g)
      = (a0 ^^^ (evL bits g.state).data0, a1 ^^^ (evL bits g.state).data1,
          ⟨Xoroshiro128PlusState.step^[bits.length] g.state⟩) := by
  induction bits generalizing a0 a1 g with
  | nil => simp [evL, Xoroshiro128PlusState.zero, Xoroshiro128Plus.state]
  | cons b bs ih =>
    have hs : g.next.2.state = g.state.step := rfl
    cases b
    · simp only [List.foldl_cons, Bool.false_eq_true, if_false]
      rw [ih, hs]
      simp only [evL, zero_xor, List.length_cons, Function.iterate_succ_apply,
        Bool.false_eq_true, if_false]
    · simp only [List.foldl_cons, if_true]
      rw [ih, hs]
      simp only [evL, List.length_cons, Function.iterate_succ_apply, if_true,
        Xoroshiro128PlusState.xor, Nat.xor_assoc]
      rfl

theorem jump_eq_Ev {D : Nat} (g : Xoroshiro128Plus D) : g.jump = ⟨Ev jump_poly g.state⟩ := by
  have e : List.range state_length = [0, 1] := by decide
  have h : (List.range state_length).foldl
      (fun acc i => (List.range (8 * 8)).foldl (jump_body i) acc) (0, 0, g)
      = (jump_bits 0 ++ jump_bits 1).foldl
        (fun (a : Nat × Nat × Xoroshiro128Plus D) (b : Bool) =>
          if b then (a.1 ^^^ a.2.2.data0, a.2.1 ^^^ a.2.2.data1, a.2.2.next.2)
          else (a.1, a.2.1, a.2.2.next.2)) (0, 0, g) := by
    rw [e]
    simp only [List.foldl_cons, List.foldl_nil, jump_inner, List.foldl_append]
  rw [Ev_eq 128 _ _ (by decide), evN_eq_evL, ← jump_bits_eq]
  unfold Xoroshiro128Plus.jump
  rw [h, jump_fold]
  simp only [Nat.zero_xor]

/-! ## Periods -/

set_option maxRecDepth 100000 in
theorem cofactor_table_checked :
    cofactor_table.all (fun x => cofactor_check x.1 x.2) = true := by
  decide!

theorem cofactor_sound (p h : Nat) (hc : cofactor_check p h = true)
    (s : Xoroshiro128PlusState) (hs : s.WF)
    (hper : Xoroshiro128PlusState.step^[(2 ^ 128 - 1) / p] s = s) :
    s = Xoroshiro128PlusState.zero := by
  unfold cofactor_check at hc
  cases hx : xpow 128 ((2 ^ 128 - 1) / p) with
  | none =>
    rw [hx] at hc
    cases hc
  | some r =>
    rw [hx] at hc
    simp only [Bool.and_eq_true, decide_eq_true_eq] at hc
    obtain ⟨hh, hinv⟩ := hc
    have h1 : Ev r s = s := by rw [xpow_sound _ _ _ hx s hs, hper]
    have h2 : Ev (r ^^^ 1) s = Xoroshiro128PlusState.zero := by
      rw [Ev_xor, h1, Ev_one, xor_self]
    have h3 : Ev (pmod 128 (clmul 128 h (r ^^^ 1))) s = Xoroshiro128PlusState.zero := by
      rw [Ev_pmod _ _ _ hs, Ev_clmul 128 h _ s hh hs, h2, Ev_zero_right]
    rw [hinv, Ev_one] at h3
    exact h3

theorem dvd_peel (e p m : Nat) (hp : p.Prime) (h : e ∣ p * m) : p ∣ e ∨ e ∣ m := by
  by_cases hpe : p ∣ e
  · exact Or.inl hpe
  · exact Or.inr ((hp.coprime_iff_not_dvd.2 hpe).symm.dvd_of_dvd_mul_left h)

theorem small_prime_dvd (e : Nat) (he : e ∣ 2 ^ 128 - 1)
    (hbig : 65535 * 67280421310721 < e) : ∃ x ∈ cofactor_table, x.1 ∣ e := by
  have hN : 2 ^ 128 - 1 = 641 * (65537 * (274177 * (6700417 * (65535 * 67280421310721)))) := by
    norm_num
  rw [hN] at he
  rcases dvd_peel e 641 _ (by norm_num) he with h | he
  · exact ⟨(641, 0xa7e437605ed5e3ae3e409dba24fc1dcd), by decide, h⟩
  rcases dvd_peel e 65537 _ (by norm_num) he with h | he
  · exact ⟨(65537, 0xecb57a9ef6f5a6fff4387293b32f3b0c), by decide, h⟩
  rcases dvd_peel e 274177 _ (by norm_num) he with h | he
  · exact ⟨(274177, 0xe9e260cf9faf324aeb4d0d5da638cf50), by decide, h⟩
  rcases dvd_peel e 6700417 _ (by norm_num) he with h | he
  · exact ⟨(6700417, 0x14ca8334099b25f5a6585d516b1fd6f1), by decide, h⟩
  exact absurd (Nat.le_of_dvd (by decide) he) (not_le.2 hbig)

theorem iterate_order (s : Xoroshiro128PlusState) (hs : s.WF) :
    Xoroshiro128PlusState.step^[2 ^ 128 - 1] s = s := by
  rw [← xpow_sound _ _ _ xpow_order s hs, Ev_one]

theorem period_large (s : Xoroshiro128PlusState) (hs : s.WF)
    (hnz : s ≠ Xoroshiro128PlusState.zero) (m : Nat) (hm : 0 < m) (hm64 : m ≤ 2 ^ 64) :
    Xoroshiro128PlusState.step^[m] s ≠ s := by
  intro hper
  have hm' : Function.IsPeriodicPt Xoroshiro128PlusState.step m s := hper
  have hN' : Function.IsPeriodicPt Xoroshiro128PlusState.step (2 ^ 128 - 1) s :=
    iterate_order s hs
  have hd := hm'.gcd hN'
  have hdm : Nat.gcd m (2 ^ 128 - 1) ∣ m := Nat.gcd_dvd_left _ _
  have hdN : Nat.gcd m (2 ^ 128 - 1) ∣ 2 ^ 128 - 1 := Nat.gcd_dvd_right _ _
  generalize Nat.gcd m (2 ^ 128 - 1) = d at hd hdm hdN
  have hdpos : 0 < d := Nat.pos_of_dvd_of_pos hdm hm
  have hd64 : d ≤ 2 ^ 64 := le_trans (Nat.le_of_dvd hm hdm) hm64
  obtain ⟨e, he⟩ := hdN
  have hebig : 65535 * 67280421310721 < e := by
    by_contra hcon
    have h1 : e ≤ 65535 * 67280421310721 := not_lt.1 hcon
    have h2 : d * e ≤ 2 ^ 64 * (65535 * 67280421310721) := Nat.mul_le_mul hd64 h1
    rw [← he] at h2
    exact absurd h2 (by norm_num)
  obtain ⟨x, hx, e', he'⟩ := small_prime_dvd e ⟨d, by rw [he, Nat.mul_comm]⟩ hebig
  have hxpos : 0 < x.1 := by
    rcases Nat.eq_zero_or_pos x.1 with h0 | h0
    · rw [h0, Nat.zero_mul] at he'
      rw [he'] at hebig
      exact absurd hebig (by decide)
    · exact h0
  have hdiv : (2 ^ 128 - 1) / x.1 = d * e' := by
    rw [he, he']
    rw [show d * (x.1 * e') = x.1 * (d * e') by ring]
    exact Nat.mul_div_cancel_left _ hxpos
  have hper' : Xoroshiro128PlusState.step^[(2 ^ 128 - 1) / x.1] s = s := by
    rw [hdiv]
    exact hd.mul_const e'
  have hc : cofactor_check x.1 x.2 = true :=
    List.all_eq_true.1 cofactor_table_checked x hx
  exact hnz (cofactor_sound x.1 x.2 hc s hs hper')

/-! ## The jump -/

theorem isZero_iff (s : Xoroshiro128PlusState) : s.isZero ↔ s = Xoroshiro128PlusState.zero := by
  cases s
  simp [Xoroshiro128PlusState.isZero, Xoroshiro128PlusState.zero]

theorem iterate_next_state {D : Nat} (n : Nat) (g : Xoroshiro128Plus D) :
    ((fun x : Xoroshiro128Plus D => x.next.2)^[n] g).state
      = Xoroshiro128PlusState.step^[n] g.state := by
  induction n generalizing g with
  | zero => rfl
  | succ n ih =>
    rw [Function.iterate_succ_apply, ih, Function.iterate_succ_apply]
    rfl

theorem jump_state {D : Nat} (g : Xoroshiro128Plus D) (hg : g.state.WF) :
    g.jump.state = Xoroshiro128PlusState.step^[2 ^ 64] g.state := by
  rw [jump_eq_Ev]
  exact xpow_sound 65 (2 ^ 64) jump_poly xpow_jump g.state hg

theorem iterate_step_injective (k : Nat) (a b : Xoroshiro128PlusState) (ha : a.WF) (hb : b.WF)
    (h : Xoroshiro128PlusState.step^[k] a = Xoroshiro128PlusState.step^[k] b) : a = b := by
  induction k with
  | zero => exact h
  | succ k ih =>
    rw [Function.iterate_succ_apply', Function.iterate_succ_apply'] at h
    exact ih (step_injective _ _ (iterate_step_WF k a ha) (iterate_step_WF k b hb) h)

theorem iterate_step_ne_zero (n : Nat) (s : Xoroshiro128PlusState) (hs : s.WF)
    (hnz : ¬ s.isZero) : ¬ (Xoroshiro128PlusState.step^[n] s).isZero := by
  induction n generalizing s with
  | zero => exact hnz
  | succ n ih =>
    rw [Function.iterate_succ_apply]
    refine ih _ (step_WF s hs) ?_
    intro hz
    exact hnz ((isZero_iff s).2 (step_eq_zero s hs ((isZero_iff _).1 hz)))

/-- C2: the state left by `jump()` is the state left by `2^64` calls of `operator()`. -/
theorem jump_spec (D : Nat) (g : Xoroshiro128Plus D) (hg : g.state.WF) :
    g.jump.state = ((fun x : Xoroshiro128Plus D => x.next.2)^[2 ^ 64] g).state := by
  rw [jump_state g hg, iterate_next_state]

theorem jump_spec_witness :
    (⟨⟨1, 2⟩⟩ : Xoroshiro128Plus 7).state.WF ∧
      (⟨⟨1, 2⟩⟩ : Xoroshiro128Plus 7).jump.state
        = ((fun x : Xoroshiro128Plus 7 => x.next.2)^[2 ^ 64] ⟨⟨1, 2⟩⟩).state :=
  ⟨by decide, jump_spec 7 ⟨⟨1, 2⟩⟩ (by decide)⟩

/-- C5: from a start state that is not `(0, 0)`, the state reached by `jump()` differs from the
state reached by `k` calls of `operator()` for every `k < 2^64`; and `jump()` followed by
`operator()` does not give the state that `discard(1)` gives. -/
theorem jump_no_overlap (D : Nat) (g : Xoroshiro128Plus D) (hg : g.state.WF)
    (hnz : ¬ g.state.isZero) :
    (∀ k : Nat, k < 2 ^ 64 →
      g.jump.state ≠ ((fun x : Xoroshiro128Plus D => x.next.2)^[k] g).state) ∧
    g.jump.next.2.state ≠ (g.discard 1).state := by
  have hne : g.state ≠ Xoroshiro128PlusState.zero := fun h => hnz ((isZero_iff _).2 h)
  have main : ∀ k : Nat, k < 2 ^ 64 →
      Xoroshiro128PlusState.step^[2 ^ 64] g.state ≠ Xoroshiro128PlusState.step^[k] g.state := by
    intro k hk heq
    have e : 2 ^ 64 = k + (2 ^ 64 - k) := by omega
    rw [e, Function.iterate_add_apply] at heq
    have hper := iterate_step_injective k _ _ (iterate_step_WF _ _ hg) hg heq
    exact period_large g.state hg hne (2 ^ 64 - k) (by omega) (by omega) hper
  constructor
  · intro k hk
    rw [jump_state g hg, iterate_next_state]
    exact main k hk
  · intro heq
    have h1 : g.jump.state.step = g.state.step := heq
    have hj : g.jump.state.WF := by
      rw [jump_state g hg]
      exact iterate_step_WF _ _ hg
    have h2 := step_injective _ _ hj hg h1
    rw [jump_state g hg] at h2
    exact main 0 (by decide) h2

theorem jump_no_overlap_witness :
    (⟨⟨1, 2⟩⟩ : Xoroshiro128Plus 7).state.WF ∧ ¬ (⟨⟨1, 2⟩⟩ : Xoroshiro128Plus 7).state.isZero ∧
      (⟨⟨1, 2⟩⟩ : Xoroshiro128Plus 7).jump.state
        ≠ ((fun x : Xoroshiro128Plus 7 => x.next.2)^[5] ⟨⟨1, 2⟩⟩).state ∧
      (⟨⟨1, 2⟩⟩ : Xoroshiro128Plus 7).jump.next.2.state
        ≠ ((⟨⟨1, 2⟩⟩ : Xoroshiro128Plus 7).discard 1).state :=
  ⟨by decide, by decide,
    (jump_no_overlap 7 ⟨⟨1, 2⟩⟩ (by decide) (by decide)).1 5 (by decide),
    (jump_no_overlap 7 ⟨⟨1, 2⟩⟩ (by decide) (by decide)).2⟩
/-! ## The state is never zero -/

theorem of_bytes_lt (bs : List Nat) (h : ∀ b ∈ bs, b < 256) : of_bytes bs < 256 ^ bs.length := by
  induction bs with
  | nil => simp [of_bytes]
  | cons b bs ih =>
    have hb : b < 256 := h b (List.mem_cons_self _ _)
    have ht : of_bytes bs < 256 ^ bs.length := ih (fun x hx => h x (List.mem_cons_of_mem _ hx))
    have e : of_bytes (b :: bs) = b + 256 * of_bytes bs := rfl
    rw [e, List.length_cons, Nat.pow_succ]
    omega

theorem of_bytes_take_lt (bs : List Nat) (h : ∀ b ∈ bs, b < 256) :
    of_bytes (bs.take 8) < 2 ^ 64 := by
  have h1 := of_bytes_lt (bs.take 8) (fun b hb => h b (List.mem_of_mem_take hb))
  have h2 : 256 ^ (bs.take 8).length ≤ 256 ^ 8 :=
    Nat.pow_le_pow_right (by decide) (List.length_take_le 8 bs)
  have h3 : (256 : Nat) ^ 8 = 2 ^ 64 := by norm_num
  omega

theorem memcpy_data_WF (w : Nat) (temp : List Nat) : (memcpy_data w temp).WF := by
  have hb : ∀ b ∈ temp.flatMap (to_bytes w), b < 256 := by
    intro b hb
    obtain ⟨v, _, hv⟩ := List.mem_flatMap.1 hb
    obtain ⟨j, _, hj⟩ := List.mem_map.1 hv
    rw [← hj]
    exact Nat.mod_lt _ (by decide)
  exact ⟨of_bytes_take_lt _ hb, of_bytes_take_lt _ (fun b h => hb b (List.mem_of_mem_drop h))⟩

theorem seed_with_gen_same_WF (gen : Generator) : (seed_with_gen_same gen).1.WF :=
  ⟨Nat.mod_lt _ (by decide), Nat.mod_lt _ (by decide)⟩

theorem seed_with_gen_diff_WF (gen : Generator) : (seed_with_gen_diff gen).1.WF :=
  memcpy_data_WF _ _

theorem validate_valid (SplitMix64 : Nat → Nat → Nat) (D fuel : Nat)
    (hD : ¬ (⟨SplitMix64 D 0 % 2 ^ 64, SplitMix64 D 1 % 2 ^ 64⟩ : Xoroshiro128PlusState).isZero)
    (raw : Xoroshiro128PlusState) (hraw : raw.WF) :
    ∃ g, validate_state_ SplitMix64 D (fuel + 1) ⟨raw⟩ = some g ∧ g.Valid := by
  by_cases hz : raw.isZero
  · refine ⟨⟨⟨SplitMix64 D 0 % 2 ^ 64, SplitMix64 D 1 % 2 ^ 64⟩⟩, ?_,
      ⟨Nat.mod_lt _ (by decide), Nat.mod_lt _ (by decide)⟩, hD⟩
    rw [validate_of_isZero SplitMix64 D fuel ⟨raw⟩ hz, seed_eq_validate,
      seed_with_gen_same_words]
    exact validate_of_not_isZero SplitMix64 D fuel _ hD
  · exact ⟨⟨raw⟩, validate_of_not_isZero SplitMix64 D (fuel + 1) ⟨raw⟩ hz, hraw, hz⟩

theorem next_valid {D : Nat} (g : Xoroshiro128Plus D) (h : g.Valid) : g.next.2.Valid :=
  ⟨step_WF g.state h.1, iterate_step_ne_zero 1 g.state h.1 h.2⟩

theorem discard_valid {D : Nat} (n : Nat) (g : Xoroshiro128Plus D) (h : g.Valid) :
    (g.discard n).Valid := by
  induction n generalizing g with
  | zero => exact h
  | succ n ih => exact ih _ (next_valid g h)

theorem jump_valid {D : Nat} (g : Xoroshiro128Plus D) (h : g.Valid) : g.jump.Valid := by
  unfold Xoroshiro128Plus.Valid
  rw [jump_state g h.1]
  exact ⟨iterate_step_WF _ _ h.1, iterate_step_ne_zero _ _ h.1 h.2⟩

theorem jumpN_valid {D : Nat} (n : Nat) (g : Xoroshiro128Plus D) (h : g.Valid) :
    (g.jumpN n).Valid := by
  induction n generalizing g with
  | zero => exact h
  | succ n ih => exact ih _ (jump_valid g h)

theorem convert_u64_lt (minus : Bool) (ds : List Char) : (convert_u64 minus ds).2 < 2 ^ 64 := by
  unfold convert_u64
  split
  · decide
  · split
    · decide
    · rename_i hv
      split
      · exact Nat.mod_lt _ (by decide)
      · exact Nat.lt_of_le_of_lt (not_lt.1 hv) (by decide)

theorem get_u64_lt (is : IStream) (old : Nat) (h : (is.get_u64 old).1.ok = true) :
    (is.get_u64 old).2 < 2 ^ 64 := by
  unfold IStream.get_u64 at h ⊢
  by_cases hbad : (is.failbit || is.badbit || is.eofbit) = true
  · rw [if_pos hbad] at h
    simp [IStream.ok] at h
  · rw [if_neg hbad] at h ⊢
    by_cases he : (is.buf.dropWhile isspace).isEmpty = true
    · simp only [he, if_true] at h
      simp [IStream.ok] at h
    · simp only [he]
      exact convert_u64_lt _ _

theorem read_state_WF (is : IStream) (temp0 temp : Xoroshiro128PlusState)
    (h : (read_xoroshiro128plus_state is temp0).2 = some temp) : temp.WF := by
  simp only [read_xoroshiro128plus_state] at h
  by_cases h2 : (if (if is.ok = true then is.get_u64 temp0.data0 else (is, temp0.data0)).1.ok = true
      then (if is.ok = true then is.get_u64 temp0.data0 else (is, temp0.data0)).1.get_u64 temp0.data1
      else ((if is.ok = true then is.get_u64 temp0.data0 else (is, temp0.data0)).1,
        temp0.data1)).1.ok = true
  · rw [if_pos h2] at h
    have ht := Option.some.inj h
    by_cases h0 : is.ok = true
    · simp only [h0, if_true] at h2 ht
      by_cases h1 : (is.get_u64 temp0.data0).1.ok = true
      · simp only [h1, if_true] at h2 ht
        rw [← ht]
        exact ⟨get_u64_lt is _ h1, get_u64_lt _ _ h2⟩
      · simp only [h1] at h2
        exact absurd h2 h1
    · simp only [h0] at h2
      simp at h2
      by_cases h1 : is.ok = true
      · exact absurd h1 h0
      · simp [h1] at h2
  · rw [if_neg h2] at h
    cases h

theorem read_of_none (SplitMix64 : Nat → Nat → Nat) {D : Nat} (fuel : Nat) (is : IStream)
    (temp0 : Xoroshiro128PlusState) (g : Xoroshiro128Plus D)
    (h : (read_xoroshiro128plus_state is temp0).2 = none) :
    Xoroshiro128Plus.read SplitMix64 fuel is temp0 g
      = some ((read_xoroshiro128plus_state is temp0).1, g) := by
  simp only [Xoroshiro128Plus.read, h]

theorem read_of_some (SplitMix64 : Nat → Nat → Nat) {D : Nat} (fuel : Nat) (is : IStream)
    (temp0 : Xoroshiro128PlusState) (g : Xoroshiro128Plus D) (temp : Xoroshiro128PlusState)
    (h : (read_xoroshiro128plus_state is temp0).2 = some temp) :
    Xoroshiro128Plus.read SplitMix64 fuel is temp0 g
      = (assign_ SplitMix64 D fuel temp false g).map
          (fun x => ((read_xoroshiro128plus_state is temp0).1, x)) := by
  simp only [Xoroshiro128Plus.read, h]

theorem read_state_ok (is : IStream) (temp0 : Xoroshiro128PlusState)
    (h : (read_xoroshiro128plus_state is temp0).1.ok = true) :
    (read_xoroshiro128plus_state is temp0).2
      = some ⟨(if is.ok then is.get_u64 temp0.data0 else (is, temp0.data0)).2,
          (if (if is.ok then is.get_u64 temp0.data0 else (is, temp0.data0)).1.ok
            then (if is.ok then is.get_u64 temp0.data0 else (is, temp0.data0)).1.get_u64
              temp0.data1
            else ((if is.ok then is.get_u64 temp0.data0 else (is, temp0.data0)).1,
              temp0.data1)).2⟩ := by
  have h' : (if (if is.ok then is.get_u64 temp0.data0 else (is, temp0.data0)).1.ok
            then (if is.ok then is.get_u64 temp0.data0 else (is, temp0.data0)).1.get_u64
              temp0.data1
            else ((if is.ok then is.get_u64 temp0.data0 else (is, temp0.data0)).1,
              temp0.data1)).1.ok = true := h
  simp only [read_xoroshiro128plus_state, h', if_true]

/-- C3: provided the two words that the seed expander gives for the default seed are not both
zero, every seeding path returns (with fuel for one re-seeding) a state that is not `(0, 0)`,
whatever the raw words are, and `operator()`, `discard(n)`, `jump()` and `jump(n)` keep the state
different from `(0, 0)`. -/
theorem state_never_zero (SplitMix64 : Nat → Nat → Nat) (D : Nat)
    (hD : ¬ (⟨SplitMix64 D 0 % 2 ^ 64, SplitMix64 D 1 % 2 ^ 64⟩ : Xoroshiro128PlusState).isZero) :
    (∀ fuel v : Nat, ∃ g, seed SplitMix64 D (fuel + 1) v = some g ∧ g.Valid) ∧
    (∀ (fuel : Nat) (sseq : SeedSeq),
      ∃ g, seed_sseq_ SplitMix64 D (fuel + 1) sseq = some g ∧ g.Valid) ∧
    (∀ (fuel : Nat) (gen : Generator),
      ∃ r, seed_gen_ SplitMix64 D (fuel + 1) gen = some r ∧ r.1.Valid) ∧
    (∀ (fuel : Nat) (other : Xoroshiro128PlusState) (g : Xoroshiro128Plus D), other.WF →
      ∃ g', assign_ SplitMix64 D (fuel + 1) other false g = some g' ∧ g'.Valid) ∧
    (∀ (fuel : Nat) (other : Xoroshiro128PlusState) (g : Xoroshiro128Plus D), g.Valid →
      ∃ g', assign_ SplitMix64 D (fuel + 1) other true g = some g' ∧ g'.Valid) ∧
    (∀ (fuel : Nat) (is : IStream) (temp0 : Xoroshiro128PlusState) (g : Xoroshiro128Plus D),
      ∃ r, Xoroshiro128Plus.read SplitMix64 (fuel + 1) is temp0 g = some r ∧
        (r.1.ok = true ∨ g.Valid → r.2.Valid)) ∧
    (∀ g : Xoroshiro128Plus D, g.Valid →
      g.next.2.Valid ∧ (∀ n : Nat, (g.discard n).Valid) ∧ g.jump.Valid ∧
        ∀ n : Nat, (g.jumpN n).Valid) := by
  refine ⟨?_, ?_, ?_, ?_, ?_, ?_, ?_⟩
  · intro fuel v
    rw [seed_eq_validate]
    exact validate_valid SplitMix64 D fuel hD _ (seed_with_gen_same_WF _)
  · intro fuel sseq
    exact validate_valid SplitMix64 D fuel hD _ (memcpy_data_WF _ _)
  · intro fuel gen
    have hraw : (if gen.result_size = 8 then seed_with_gen_same gen
        else seed_with_gen_diff gen).1.WF := by
      split
      · exact seed_with_gen_same_WF gen
      · exact seed_with_gen_diff_WF gen
    obtain ⟨g, hg, hv⟩ := validate_valid SplitMix64 D fuel hD _ hraw
    refine ⟨(g, (if gen.result_size = 8 then seed_with_gen_same gen
        else seed_with_gen_diff gen).2), ?_, hv⟩
    simp only [seed_gen_, hg, Option.map_some']
  · intro fuel other g hother
    exact validate_valid SplitMix64 D fuel hD other hother
  · intro fuel other g hg
    exact ⟨g, rfl, hg⟩
  · intro fuel is temp0 g
    cases ht : (read_xoroshiro128plus_state is temp0).2 with
    | none =>
      refine ⟨_, read_of_none SplitMix64 (fuel + 1) is temp0 g ht, ?_⟩
      intro h
      rcases h with h | h
      · rw [read_state_ok is temp0 h] at ht
        cases ht
      · exact h
    | some temp =>
      obtain ⟨g', hg', hv⟩ :=
        validate_valid SplitMix64 D fuel hD temp (read_state_WF is temp0 temp ht)
      refine ⟨((read_xoroshiro128plus_state is temp0).1, g'), ?_, fun _ => hv⟩
      rw [read_of_some SplitMix64 (fuel + 1) is temp0 g temp ht]
      simp only [assign_, Bool.not_false, if_true, hg', Option.map_some']
  · intro g hg
    exact ⟨next_valid g hg, fun n => discard_valid n g hg, jump_valid g hg,
      fun n => jumpN_valid n g hg⟩

theorem state_never_zero_witness :
    ¬ (⟨(fun s i : Nat => s + i + 1) 5 0 % 2 ^ 64, (fun s i : Nat => s + i + 1) 5 1 % 2 ^ 64⟩ :
        Xoroshiro128PlusState).isZero ∧
      (∃ g, seed (fun s i : Nat => s + i + 1) 5 1 (2 ^ 64 - 1) = some g ∧ g.Valid) ∧
      (∃ g', assign_ (fun s i : Nat => s + i + 1) 5 1 ⟨0, 0⟩ false ⟨⟨3, 4⟩⟩ = some g' ∧
        g'.Valid) :=
  ⟨by decide,
    (state_never_zero (fun s i : Nat => s + i + 1) 5 (by decide)).1 0 (2 ^ 64 - 1),
    (state_never_zero (fun s i : Nat => s + i + 1) 5 (by decide)).2.2.2.1 0 ⟨0, 0⟩ ⟨⟨3, 4⟩⟩
      (by decide)⟩

/-! ## Text round trip -/

theorem digit_char (d : Nat) (hd : d < 10) :
    isdigit (Char.ofNat (48 + d)) = true ∧ (Char.ofNat (48 + d)).toNat = 48 + d := by
  have h : ∀ d < 10, isdigit (Char.ofNat (48 + d)) = true ∧
      (Char.ofNat (48 + d)).toNat = 48 + d := by decide
  exact h d hd

theorem digits_value_append (ds : List Char) (c : Char) :
    digits_value (ds ++ [c]) = 10 * digits_value ds + (c.toNat - 48) := by
  simp [digits_value, List.foldl_append]

theorem put_digits_spec (fuel n : Nat) (acc : List Char) (hn : n < 10 ^ (fuel + 1)) :
    ∃ ds, put_digits (fuel + 1) n acc = ds ++ acc ∧ ds ≠ [] ∧
      (∀ c ∈ ds, isdigit c = true) ∧ digits_value ds = n := by
  induction fuel generalizing n acc with
  | zero =>
    have h10 : n < 10 := by simpa using hn
    refine ⟨[Char.ofNat (48 + n)], by simp [put_digits, h10], by simp, ?_, ?_⟩
    · intro c hc
      rw [List.mem_singleton.1 hc]
      exact (digit_char n h10).1
    · simp [digits_value, (digit_char n h10).2]
  | succ fuel ih =>
    by_cases h10 : n < 10
    · refine ⟨[Char.ofNat (48 + n)], by simp [put_digits, h10], by simp, ?_, ?_⟩
      · intro c hc
        rw [List.mem_singleton.1 hc]
        exact (digit_char n h10).1
      · simp [digits_value, (digit_char n h10).2]
    · have hdiv : n / 10 < 10 ^ (fuel + 1) := by
        rw [Nat.div_lt_iff_lt_mul (by decide)]
        rwa [Nat.pow_succ] at hn
      have hmod : n % 10 < 10 := Nat.mod_lt _ (by decide)
      obtain ⟨ds, hds, _, hdig, hval⟩ := ih (n / 10) (Char.ofNat (48 + n % 10) :: acc) hdiv
      refine ⟨ds ++ [Char.ofNat (48 + n % 10)], ?_, by simp, ?_, ?_⟩
      · rw [put_digits, if_neg h10, hds]
        simp
      · intro c hc
        rcases List.mem_append.1 hc with h | h
        · exact hdig c h
        · rw [List.mem_singleton.1 h]
          exact (digit_char _ hmod).1
      · rw [digits_value_append, hval, (digit_char _ hmod).2]
        omega

theorem dropWhile_append_of_all (p : Char → Bool) (l1 l2 : List Char)
    (h1 : ∀ c ∈ l1, p c = true) (h2 : ∀ c ∈ l2.head?, p c = false) :
    (l1 ++ l2).dropWhile p = l2 := by
  induction l1 with
  | nil =>
    cases l2 with
    | nil => rfl
    | cons c l =>
      have hc : p c = false := h2 c rfl
      simp [List.dropWhile_cons, hc]
  | cons a l ih =>
    have ha : p a = true := h1 a (List.mem_cons_self _ _)
    simp only [List.cons_append, List.dropWhile_cons, ha, if_true]
    exact ih (fun c hc => h1 c (List.mem_cons_of_mem _ hc))

theorem takeWhile_append_of_all (p : Char → Bool) (l1 l2 : List Char)
    (h1 : ∀ c ∈ l1, p c = true) (h2 : ∀ c ∈ l2.head?, p c = false) :
    (l1 ++ l2).takeWhile p = l1 := by
  induction l1 with
  | nil =>
    cases l2 with
    | nil => rfl
    | cons c l =>
      have hc : p c = false := h2 c rfl
      simp [List.takeWhile_cons, hc]
  | cons a l ih =>
    have ha : p a = true := h1 a (List.mem_cons_self _ _)
    simp only [List.cons_append, List.takeWhile_cons, ha, if_true]
    rw [ih (fun c hc => h1 c (List.mem_cons_of_mem _ hc))]

theorem isdigit_not_special (c : Char) (h : isdigit c = true) :
    isspace c = false ∧ c ≠ Char.ofNat 45 ∧ c ≠ Char.ofNat 43 := by
  simp only [isdigit, Bool.and_eq_true, decide_eq_true_eq] at h
  refine ⟨?_, ?_, ?_⟩
  · simp only [isspace, Bool.or_eq_false_iff, Bool.and_eq_false_imp, decide_eq_false_iff_not,
      decide_eq_true_eq]
    omega
  · intro hc
    rw [hc] at h
    exact absurd h (by decide)
  · intro hc
    rw [hc] at h
    exact absurd h (by decide)

theorem get_u64_digits (sp ds rest : List Char) (old n : Nat)
    (hsp : ∀ c ∈ sp, isspace c = true) (hds : ∀ c ∈ ds, isdigit c = true) (hne : ds ≠ [])
    (hrest : ∀ c ∈ rest.head?, isdigit c = false) (hv : digits_value ds = n)
    (hn : n < 2 ^ 64) :
    IStream.get_u64 ⟨sp ++ (ds ++ rest), false, false, false⟩ old
      = (⟨rest, false, rest.isEmpty, false⟩, n) := by
  obtain ⟨d, ds', rfl⟩ := List.exists_cons_of_ne_nil hne
  have hd := isdigit_not_special d (hds d (List.mem_cons_self _ _))
  have hskip : (sp ++ (d :: ds' ++ rest)).dropWhile isspace = d :: ds' ++ rest := by
    apply dropWhile_append_of_all _ _ _ hsp
    intro c hc
    simp only [List.cons_append, List.head?_cons, Option.mem_def, Option.some.injEq] at hc
    rw [← hc]
    exact hd.1
  have htake : (d :: ds' ++ rest).takeWhile isdigit = d :: ds' :=
    takeWhile_append_of_all _ _ _ hds hrest
  have hdrop : (d :: ds' ++ rest).dropWhile isdigit = rest :=
    dropWhile_append_of_all _ _ _ hds hrest
  have hm : decide ((d :: ds' ++ rest).head? = some (Char.ofNat 45)) = false := by
    simp [hd.2.1]
  have hp : decide ((d :: ds' ++ rest).head? = some (Char.ofNat 43)) = false := by
    simp [hd.2.2]
  have hconv : convert_u64 false (d :: ds') = (false, n) := by
    have hnot : ¬ 2 ^ 64 - 1 < n := by omega
    simp only [convert_u64, List.isEmpty_cons, Bool.false_eq_true, if_false, hv, if_neg hnot]
  unfold IStream.get_u64
  simp only [Bool.or_self, Bool.false_eq_true, if_false, hskip, hm, hp, htake, hdrop, hconv]
  simp

theorem read_write_state (s temp0 : Xoroshiro128PlusState) (hs : s.WF) :
    read_xoroshiro128plus_state ⟨s.write [], false, false, false⟩ temp0
      = (⟨[], false, true, false⟩, some s) := by
  have h20 : (2 : Nat) ^ 64 < 10 ^ (19 + 1) := by norm_num
  obtain ⟨d0, e0, hne0, hdig0, hv0⟩ :=
    put_digits_spec 19 s.data0 [] (lt_trans hs.1 h20)
  obtain ⟨d1, e1, hne1, hdig1, hv1⟩ :=
    put_digits_spec 19 s.data1 [] (lt_trans hs.2 h20)
  rw [List.append_nil] at e0 e1
  have hbuf : s.write [] = [] ++ (d0 ++ ([Char.ofNat 32] ++ (d1 ++ []))) := by
    simp [Xoroshiro128PlusState.write, put_u64, e0, e1]
  have hsp : ∀ c ∈ [Char.ofNat 32], isspace c = true := by
    intro c hc
    rw [List.mem_singleton.1 hc]
    decide
  have hr0 : ∀ c ∈ ([Char.ofNat 32] ++ (d1 ++ [])).head?, isdigit c = false := by
    intro c hc
    simp only [List.singleton_append, List.head?_cons, Option.mem_def, Option.some.injEq] at hc
    rw [← hc]
    decide
  have g0 := get_u64_digits [] d0 ([Char.ofNat 32] ++ (d1 ++ [])) temp0.data0 s.data0
    (fun c hc => absurd hc (List.not_mem_nil c)) hdig0 hne0 hr0 hv0 hs.1
  have g1 := get_u64_digits [Char.ofNat 32] d1 [] temp0.data1 s.data1 hsp hdig1 hne1
    (fun c hc => by simp at hc) hv1 hs.2
  simp only [List.nil_append, List.append_nil, List.singleton_append, List.isEmpty_cons,
    List.isEmpty_nil] at hbuf g0 g1
  rw [hbuf]
  simp only [read_xoroshiro128plus_state, IStream.ok, Bool.or_self, Bool.not_false, if_true, g0,
    g1]

/-- C10: writing a generator `g` whose state is not `(0, 0)` with `operator<<` and reading the
text with `operator>>` into any generator `h` succeeds and leaves `h` with the state of `g`, so
that both then give the same outputs. -/
theorem serialization_round_trip (SplitMix64 : Nat → Nat → Nat) (S T fuel : Nat)
    (g : Xoroshiro128Plus S) (h : Xoroshiro128Plus T) (temp0 : Xoroshiro128PlusState)
    (hg : g.state.WF) (hnz : ¬ g.state.isZero) :
    ∃ r, Xoroshiro128Plus.read SplitMix64 fuel ⟨g.write [], false, false, false⟩ temp0 h
        = some r ∧ r.1.ok = true ∧ r.2.state = g.state ∧
      ∀ n : Nat, r.2.outputs n = g.outputs n := by
  have hr := read_write_state g.state temp0 hg
  refine ⟨(⟨[], false, true, false⟩, ⟨g.state⟩), ?_, rfl, rfl, 
    fun n => outputs_congr (⟨g.state⟩ : Xoroshiro128Plus T) g rfl n⟩
  have h2 : (read_xoroshiro128plus_state ⟨g.write [], false, false, false⟩ temp0).2
      = some g.state := by
    rw [Xoroshiro128Plus.write, hr]
  rw [read_of_some SplitMix64 fuel _ temp0 h g.state h2, Xoroshiro128Plus.write, hr]
  simp only [assign_, Bool.not_false, if_true]
  rw [validate_of_not_isZero SplitMix64 T fuel ⟨g.state⟩ hnz]
  rfl

theorem serialization_round_trip_witness :
    (⟨⟨12345, 2 ^ 64 - 1⟩⟩ : Xoroshiro128Plus 7).state.WF ∧
      ¬ (⟨⟨12345, 2 ^ 64 - 1⟩⟩ : Xoroshiro128Plus 7).state.isZero ∧
      ∃ r, Xoroshiro128Plus.read (fun s i : Nat => s + i) 0
          ⟨(⟨⟨12345, 2 ^ 64 - 1⟩⟩ : Xoroshiro128Plus 7).write [], false, false, false⟩ ⟨0, 0⟩
          (⟨⟨1, 1⟩⟩ : Xoroshiro128Plus 9) = some r ∧ r.1.ok = true ∧
        r.2.state = (⟨⟨12345, 2 ^ 64 - 1⟩⟩ : Xoroshiro128Plus 7).state ∧
        ∀ n : Nat, r.2.outputs n = (⟨⟨12345, 2 ^ 64 - 1⟩⟩ : Xoroshiro128Plus 7).outputs n :=
  ⟨by decide, by decide,
    serialization_round_trip (fun s i : Nat => s + i) 7 9 0 ⟨⟨12345, 2 ^ 64 - 1⟩⟩ ⟨⟨1, 1⟩⟩ ⟨0, 0⟩
      (by decide) (by decide)⟩

/-! ## Bounds, fixed point and bijectivity -/

/-- C15: `min()` is 0 and `max()` is `2^64 - 1` for every default seed, and every value returned
by `operator()` lies between them. -/
theorem min_max_spec (D : Nat) (g : Xoroshiro128Plus D) :
    Xoroshiro128Plus.min D = 0 ∧ Xoroshiro128Plus.max D = 2 ^ 64 - 1 ∧
      Xoroshiro128Plus.min D ≤ g.next.1 ∧ g.next.1 ≤ Xoroshiro128Plus.max D := by
  refine ⟨rfl, rfl, Nat.zero_le _, ?_⟩
  have h : g.next.1 < 2 ^ 64 := Nat.mod_lt _ (by decide)
  exact Nat.le_pred_of_lt h

theorem next_zero (D : Nat) :
    (⟨⟨0, 0⟩⟩ : Xoroshiro128Plus D).next = (0, ⟨⟨0, 0⟩⟩) := by
  apply Prod.ext
  · show (0 + 0) % 2 ^ 64 = 0
    decide
  · rw [next_snd]
    show (⟨Xoroshiro128PlusState.zero.step⟩ : Xoroshiro128Plus D) = ⟨⟨0, 0⟩⟩
    rw [step_zero]
    rfl

theorem outputs_zero (D n : Nat) :
    (⟨⟨0, 0⟩⟩ : Xoroshiro128Plus D).outputs n = List.replicate n 0 := by
  induction n with
  | zero => rfl
  | succ n ih =>
    rw [Xoroshiro128Plus.outputs, next_zero, ih]
    rfl

/-- C17: from the state `(0, 0)`, `operator()` returns 0 and leaves the state `(0, 0)`, so every
output from that state is 0. -/
theorem zero_fixed_point (D : Nat) :
    (⟨⟨0, 0⟩⟩ : Xoroshiro128Plus D).next = (0, ⟨⟨0, 0⟩⟩) ∧
      ∀ n : Nat, (⟨⟨0, 0⟩⟩ : Xoroshiro128Plus D).outputs n = List.replicate n 0 :=
  ⟨next_zero D, outputs_zero D⟩

/-! ## The jump as an accumulation, and its commutation with the transition -/

theorem xor_iterates_map_succ (ks : List Nat) (s : Xoroshiro128PlusState) :
    xor_iterates (ks.map Nat.succ) s = xor_iterates ks s.step := by
  induction ks with
  | nil => rfl
  | cons k ks ih =>
    have e : xor_iterates (k :: ks) s.step
        = (Xoroshiro128PlusState.step^[k] s.step).xor (xor_iterates ks s.step) := rfl
    have e' : xor_iterates ((k :: ks).map Nat.succ) s
        = (Xoroshiro128PlusState.step^[k + 1] s).xor (xor_iterates (ks.map Nat.succ) s) := rfl
    rw [e, e', ih, Function.iterate_succ_apply]

theorem evL_eq_xor_iterates (n : Nat) (f : Nat → Bool) (s : Xoroshiro128PlusState) :
    evL ((List.range n).map f) s = xor_iterates ((List.range n).filter f) s := by
  induction n generalizing f s with
  | zero => rfl
  | succ n ih =>
    rw [List.range_succ_eq_map, List.map_cons, List.map_map, evL, ih, List.filter_cons,
      List.filter_map]
    cases f 0
    · simp only [Bool.false_eq_true, if_false, zero_xor, xor_iterates_map_succ]
    · simp only [if_true]
      show _ = (Xoroshiro128PlusState.step^[0] s).xor
        (xor_iterates (List.map Nat.succ (List.filter (f ∘ Nat.succ) (List.range n))) s)
      rw [xor_iterates_map_succ]
      rfl

/-- C16: the state after `jump()` is the word-wise XOR, over the `k` in `0..127` for which bit
`k` of the jump constant is set, of the `k`-th iterate of the transition on the start state,
where the jump constant has `0xbeac0467eba5facb` in bits 0..63 and `0xd86b048b86aa9922` in bits
64..127. -/
theorem jump_xor_accumulation (D : Nat) (g : Xoroshiro128Plus D) :
    g.jump.state
        = xor_iterates ((List.range 128).filter (fun k => jump_poly.testBit k)) g.state ∧
      jump_poly % 2 ^ 64 = 0xbeac0467eba5facb ∧ jump_poly / 2 ^ 64 = 0xd86b048b86aa9922 ∧
      ∀ k : Nat, ((fun x : Xoroshiro128Plus D => x.next.2)^[k] g).state
        = Xoroshiro128PlusState.step^[k] g.state := by
  refine ⟨?_, by decide, by decide, fun k => iterate_next_state k g⟩
  rw [jump_eq_Ev, ← evL_eq_xor_iterates, ← evN_eq_evL]
  exact Ev_eq 128 jump_poly g.state (by decide)

/-- C20: `jump()` followed by `operator()` leaves the state that `operator()` followed by
`jump()` leaves, and `discard(n)` followed by `jump()` leaves the state that `jump()` followed
by `discard(n)` leaves. -/
theorem jump_next_commute (D : Nat) (g : Xoroshiro128Plus D) (hg : g.state.WF) :
    g.jump.next.2.state = g.next.2.jump.state ∧
      ∀ n : Nat, (g.discard n).jump.state = (g.jump.discard n).state := by
  have hd : ∀ (n : Nat) (x : Xoroshiro128Plus D),
      (x.discard n).state = Xoroshiro128PlusState.step^[n] x.state := by
    intro n x
    rw [discard_eq_iterate, iterate_next_state]
  constructor
  · have h1 : g.jump.next.2.state = g.jump.state.step := rfl
    have h2 : g.next.2.state = g.state.step := rfl
    rw [h1, jump_state g hg, jump_state g.next.2 (step_WF _ hg), h2,
      ← Function.iterate_succ_apply' Xoroshiro128PlusState.step,
      ← Function.iterate_succ_apply Xoroshiro128PlusState.step]
  · intro n
    have hw : (g.discard n).state.WF := by
      rw [hd]
      exact iterate_step_WF _ _ hg
    rw [jump_state _ hw, hd, hd, jump_state g hg, ← Function.iterate_add_apply,
      ← Function.iterate_add_apply, Nat.add_comm]

theorem jump_next_commute_witness :
    (⟨⟨1, 2⟩⟩ : Xoroshiro128Plus 7).state.WF ∧
      (⟨⟨1, 2⟩⟩ : Xoroshiro128Plus 7).jump.next.2.state
        = (⟨⟨1, 2⟩⟩ : Xoroshiro128Plus 7).next.2.jump.state ∧
      ((⟨⟨1, 2⟩⟩ : Xoroshiro128Plus 7).discard 3).jump.state
        = ((⟨⟨1, 2⟩⟩ : Xoroshiro128Plus 7).jump.discard 3).state :=
  ⟨by decide, (jump_next_commute 7 ⟨⟨1, 2⟩⟩ (by decide)).1,
    (jump_next_commute 7 ⟨⟨1, 2⟩⟩ (by decide)).2 3⟩

theorem preimage_of_period (S m : Nat) (t : Xoroshiro128PlusState) (ht : t.WF)
    (h : Xoroshiro128PlusState.step^[m + 1] t = t) :
    ∃ a : Xoroshiro128Plus S, a.state.WF ∧ a.next.2.state = t := by
  refine ⟨⟨Xoroshiro128PlusState.step^[m] t⟩, iterate_step_WF m t ht, ?_⟩
  rw [Function.iterate_succ_apply'] at h
  exact h

/-- C19: the transition of `operator()` is injective on the states of two 64-bit words, and
every such state is reached from one, so the transition is a bijection. -/
theorem transition_bijective (S T : Nat) :
    (∀ (a : Xoroshiro128Plus S) (b : Xoroshiro128Plus T), a.state.WF → b.state.WF →
      a.next.2.state = b.next.2.state → a.state = b.state) ∧
    (∀ t : Xoroshiro128PlusState, t.WF →
      ∃ a : Xoroshiro128Plus S, a.state.WF ∧ a.next.2.state = t) := by
  constructor
  · intro a b ha hb h
    exact step_injective a.state b.state ha hb h
  · intro t ht
    obtain ⟨m, hm⟩ : ∃ m : Nat, m + 1 = 2 ^ 128 - 1 := ⟨2 ^ 128 - 2, by norm_num⟩
    have ho := iterate_order t ht
    rw [← hm] at ho
    exact preimage_of_period S m t ht ho

theorem transition_bijective_witness :
    (⟨⟨3, 2 ^ 64 - 1⟩⟩ : Xoroshiro128Plus 7).state = (⟨⟨3, 2 ^ 64 - 1⟩⟩ : Xoroshiro128Plus 9).state :=
  (transition_bijective 7 9).1 ⟨⟨3, 2 ^ 64 - 1⟩⟩ ⟨⟨3, 2 ^ 64 - 1⟩⟩ (by decide) (by decide) rfl


/-! ## Words taken by the seeding paths -/

theorem of_bytes_append (a b : List Nat) :
    of_bytes (a ++ b) = of_bytes a + 256 ^ a.length * of_bytes b := by
  induction a with
  | nil => simp [of_bytes]
  | cons x a ih =>
    have e1 : of_bytes (x :: a ++ b) = x + 256 * of_bytes (a ++ b) := rfl
    have e2 : of_bytes (x :: a) = x + 256 * of_bytes a := rfl
    rw [e1, e2, ih, List.length_cons, Nat.pow_succ]
    ring

theorem to_bytes_length (w v : Nat) : (to_bytes w v).length = w := by
  simp [to_bytes]

theorem to_bytes_succ (w v : Nat) :
    to_bytes (w + 1) v = to_bytes w v ++ [(v >>> (8 * w)) % 256] := by
  simp [to_bytes, List.range_succ]

theorem of_bytes_to_bytes (w v : Nat) : of_bytes (to_bytes w v) = v % 256 ^ w := by
  induction w with
  | zero => simp [to_bytes, of_bytes, Nat.mod_one]
  | succ w ih =>
    have e : (256 : Nat) ^ w = 2 ^ (8 * w) := by
      rw [Nat.pow_mul]
    rw [to_bytes_succ, of_bytes_append, ih, to_bytes_length, Nat.mod_pow_succ,
      Nat.shiftRight_eq_div_pow, ← e]
    simp [of_bytes]

theorem to_bytes_lt (w v b : Nat) (h : b ∈ to_bytes w v) : b < 256 := by
  obtain ⟨j, _, hj⟩ := List.mem_map.1 h
  rw [← hj]
  exact Nat.mod_lt _ (by decide)

theorem flatMap_bytes_lt (w : Nat) (vs : List Nat) (b : Nat)
    (h : b ∈ vs.flatMap (to_bytes w)) : b < 256 := by
  obtain ⟨v, _, hv⟩ := List.mem_flatMap.1 h
  exact to_bytes_lt w v b hv

theorem of_bytes_flatMap (w : Nat) (vs : List Nat) (h : ∀ v ∈ vs, v < 2 ^ (8 * w)) :
    of_bytes (vs.flatMap (to_bytes w)) = concat_le w vs := by
  induction vs with
  | nil => rfl
  | cons v vs ih =>
    have e : (256 : Nat) ^ w = 2 ^ (8 * w) := by
      rw [Nat.pow_mul]
    have hv : v < 2 ^ (8 * w) := h v (List.mem_cons_self _ _)
    have e2 : concat_le w (v :: vs) = v + 2 ^ (8 * w) * concat_le w vs := rfl
    rw [List.flatMap_cons, of_bytes_append, of_bytes_to_bytes, to_bytes_length,
      ih (fun x hx => h x (List.mem_cons_of_mem _ hx)), e2, e, Nat.mod_eq_of_lt hv]

theorem add_mul_mod_mul (b x m : Nat) (hb : b < 256) :
    (b + 256 * x) % (256 * m) = b + 256 * (x % m) := by
  rcases Nat.eq_zero_or_pos m with hm | hm
  · simp [hm]
  · have h1 : b + 256 * x = b + 256 * (x % m) + 256 * m * (x / m) := by
      have := Nat.mod_add_div x m
      calc b + 256 * x = b + 256 * (x % m + m * (x / m)) := by rw [this]
        _ = b + 256 * (x % m) + 256 * m * (x / m) := by ring
    have h2 : b + 256 * (x % m) < 256 * m := by
      have := Nat.mod_lt x hm
      omega
    rw [h1, Nat.add_mul_mod_self_left, Nat.mod_eq_of_lt h2]

theorem of_bytes_take (k : Nat) (bs : List Nat) (h : ∀ b ∈ bs, b < 256) :
    of_bytes (bs.take k) = of_bytes bs % 256 ^ k := by
  induction k generalizing bs with
  | zero => simp [of_bytes, Nat.mod_one]
  | succ k ih =>
    cases bs with
    | nil => simp [of_bytes]
    | cons b bs =>
      have hb : b < 256 := h b (List.mem_cons_self _ _)
      have e1 : of_bytes (b :: bs) = b + 256 * of_bytes bs := rfl
      have e2 : of_bytes (b :: bs.take k) = b + 256 * of_bytes (bs.take k) := rfl
      rw [List.take_succ_cons, e1, e2, ih bs (fun x hx => h x (List.mem_cons_of_mem _ hx)),
        Nat.pow_succ, Nat.mul_comm (256 ^ k) 256, add_mul_mod_mul b _ _ hb]

theorem of_bytes_drop (k : Nat) (bs : List Nat) (h : ∀ b ∈ bs, b < 256) :
    of_bytes (bs.drop k) = of_bytes bs / 256 ^ k := by
  induction k generalizing bs with
  | zero => simp
  | succ k ih =>
    cases bs with
    | nil => simp [of_bytes]
    | cons b bs =>
      have hb : b < 256 := h b (List.mem_cons_self _ _)
      have e1 : of_bytes (b :: bs) = b + 256 * of_bytes bs := rfl
      have e3 : (b + 256 * of_bytes bs) / 256 = of_bytes bs := by omega
      rw [List.drop_succ_cons, e1, ih bs (fun x hx => h x (List.mem_cons_of_mem _ hx)),
        Nat.pow_succ, Nat.mul_comm (256 ^ k) 256, ← Nat.div_div_eq_div_mul, e3]

theorem memcpy_data_eq (w : Nat) (temp : List Nat) (h : ∀ v ∈ temp, v < 2 ^ (8 * w)) :
    memcpy_data w temp = ⟨concat_le w temp % 2 ^ 64, concat_le w temp / 2 ^ 64 % 2 ^ 64⟩ := by
  have e : (256 : Nat) ^ 8 = 2 ^ 64 := by norm_num
  have hb := flatMap_bytes_lt w temp
  simp only [memcpy_data]
  rw [of_bytes_take 8 _ (fun b hb' => hb b (List.mem_of_mem_drop hb')), of_bytes_drop 8 _ hb,
    of_bytes_take 8 _ hb, of_bytes_flatMap w temp h, e]

theorem collect_calls (n : Nat) (l : List Nat) (gen : Generator) :
    (List.range n).foldl
        (fun (acc : List Nat × Generator) _ => (acc.1 ++ [acc.2.call.1], acc.2.call.2)) (l, gen)
      = (l ++ (List.range n).map
            (fun i => gen.out (gen.calls + i) % 2 ^ (8 * gen.result_size)),
          ⟨gen.result_size, gen.out, gen.calls + n⟩) := by
  induction n with
  | zero => simp
  | succ n ih =>
    rw [List.range_succ, List.foldl_append, ih]
    simp [Generator.call, Nat.add_assoc]

theorem seed_with_gen_diff_eq (gen : Generator) :
    seed_with_gen_diff gen
      = (memcpy_data gen.result_size ((List.range ((16 + gen.result_size - 1) / gen.result_size)).map
            (fun i => gen.out (gen.calls + i) % 2 ^ (8 * gen.result_size))),
          ⟨gen.result_size, gen.out,
            gen.calls + (16 + gen.result_size - 1) / gen.result_size⟩) := by
  simp only [seed_with_gen_diff, state_length, collect_calls, List.nil_append]

theorem ceil_div_spec (w : Nat) (hw : 0 < w) :
    16 ≤ (16 + w - 1) / w * w ∧ (16 + w - 1) / w * w < 16 + w := by
  have h1 := Nat.div_add_mod (16 + w - 1) w
  have h2 := Nat.mod_lt (16 + w - 1) hw
  have h3 : (16 + w - 1) / w * w = w * ((16 + w - 1) / w) := Nat.mul_comm _ _
  omega

/-- C18: seeding from a generator whose result type is `w` bytes wide, `w` other than 8, calls it
`n` times, `n` being the least number with `16 ≤ n * w`, and sets the state to the low 128 bits of
the little-endian concatenation of the words returned, in call order; the state is then
validated.  For `w = 4` and returned words `g0, g1, g2, g3` this is `s0 = g0 + 2^32 * g1` and
`s1 = g2 + 2^32 * g3`. -/
theorem seed_from_narrow_generator (SplitMix64 : Nat → Nat → Nat) (D fuel : Nat)
    (gen : Generator) (hw : 0 < gen.result_size) (h8 : gen.result_size ≠ 8) :
    ∃ (n : Nat) (raw : Xoroshiro128PlusState),
      (16 ≤ n * gen.result_size ∧ n * gen.result_size < 16 + gen.result_size) ∧
      (raw.WF ∧ raw.data0 + 2 ^ 64 * raw.data1
        = concat_le gen.result_size ((List.range n).map
            (fun i => gen.out (gen.calls + i) % 2 ^ (8 * gen.result_size))) % 2 ^ 128) ∧
      (gen.result_size = 4 → n = 4 ∧
        raw = ⟨gen.out gen.calls % 2 ^ 32 + 2 ^ 32 * (gen.out (gen.calls + 1) % 2 ^ 32),
          gen.out (gen.calls + 2) % 2 ^ 32 + 2 ^ 32 * (gen.out (gen.calls + 3) % 2 ^ 32)⟩) ∧
      seed_gen_ SplitMix64 D fuel gen
        = (validate_state_ SplitMix64 D fuel ⟨raw⟩).map
            (fun g => (g, ⟨gen.result_size, gen.out, gen.calls + n⟩)) ∧
      (¬ raw.isZero → seed_gen_ SplitMix64 D fuel gen
        = some (⟨raw⟩, ⟨gen.result_size, gen.out, gen.calls + n⟩)) := by
  have hvals : ∀ v ∈ (List.range ((16 + gen.result_size - 1) / gen.result_size)).map
      (fun i => gen.out (gen.calls + i) % 2 ^ (8 * gen.result_size)),
      v < 2 ^ (8 * gen.result_size) := by
    intro v hv
    obtain ⟨i, _, hi⟩ := List.mem_map.1 hv
    rw [← hi]
    exact Nat.mod_lt _ (Nat.pow_pos (by decide))
  have hseed : seed_gen_ SplitMix64 D fuel gen
      = (validate_state_ SplitMix64 D fuel ⟨(seed_with_gen_diff gen).1⟩).map
          (fun g => (g, (seed_with_gen_diff gen).2)) := by
    simp only [seed_gen_, if_neg h8]
  have hgen : (seed_with_gen_diff gen).2 = ⟨gen.result_size, gen.out,
      gen.calls + (16 + gen.result_size - 1) / gen.result_size⟩ := by
    rw [seed_with_gen_diff_eq]
  refine ⟨(16 + gen.result_size - 1) / gen.result_size, (seed_with_gen_diff gen).1,
    ceil_div_spec _ hw, ⟨seed_with_gen_diff_WF gen, ?_⟩, ?_, ?_, ?_⟩
  · rw [seed_with_gen_diff_eq, memcpy_data_eq _ _ hvals]
    simp only
    omega
  · intro h4
    rw [seed_with_gen_diff_eq, memcpy_data_eq _ _ hvals, h4]
    refine ⟨by decide, ?_⟩
    have e : List.range ((16 + 4 - 1) / 4) = [0, 1, 2, 3] := by decide
    simp only [e, List.map_cons, List.map_nil, concat_le, List.foldr_cons, List.foldr_nil,
      Nat.add_zero, Nat.mul_zero]
    have b0 := Nat.mod_lt (gen.out gen.calls) (by decide : 0 < 2 ^ (8 * 4))
    have b1 := Nat.mod_lt (gen.out (gen.calls + 1)) (by decide : 0 < 2 ^ (8 * 4))
    have b2 := Nat.mod_lt (gen.out (gen.calls + 2)) (by decide : 0 < 2 ^ (8 * 4))
    have b3 := Nat.mod_lt (gen.out (gen.calls + 3)) (by decide : 0 < 2 ^ (8 * 4))
    congr 1 <;> omega
  · rw [hseed, hgen]
  · intro hnz
    rw [hseed, validate_of_not_isZero SplitMix64 D fuel
      (⟨(seed_with_gen_diff gen).1⟩ : Xoroshiro128Plus D) hnz, hgen]
    rfl

theorem seed_from_narrow_generator_witness :
    (0 : Nat) < 4 ∧ (4 : Nat) ≠ 8 ∧ ∃ (n : Nat) (raw : Xoroshiro128PlusState),
      (16 ≤ n * 4 ∧ n * 4 < 16 + 4) ∧
      (raw.WF ∧ raw.data0 + 2 ^ 64 * raw.data1
        = concat_le 4 ((List.range n).map (fun i => (7 + i + 1) % 2 ^ (8 * 4))) % 2 ^ 128) ∧
      ((4 : Nat) = 4 → n = 4 ∧
        raw = ⟨(7 + 1) % 2 ^ 32 + 2 ^ 32 * ((7 + 1 + 1) % 2 ^ 32),
          (7 + 2 + 1) % 2 ^ 32 + 2 ^ 32 * ((7 + 3 + 1) % 2 ^ 32)⟩) ∧
      seed_gen_ (fun s i : Nat => s + i) 5 1 ⟨4, fun i => i + 1, 7⟩
        = (validate_state_ (fun s i : Nat => s + i) 5 1 ⟨raw⟩).map
            (fun g => (g, ⟨4, fun i => i + 1, 7 + n⟩)) ∧
      (¬ raw.isZero → seed_gen_ (fun s i : Nat => s + i) 5 1 ⟨4, fun i => i + 1, 7⟩
        = some (⟨raw⟩, ⟨4, fun i => i + 1, 7 + n⟩)) :=
  ⟨by decide, by decide,
    seed_from_narrow_generator (fun s i : Nat => s + i) 5 1 ⟨4, fun i => i + 1, 7⟩
      (by decide) (by decide)⟩

theorem memcpy_data_four (w0 w1 w2 w3 : Nat) (h0 : w0 < 2 ^ 32) (h1 : w1 < 2 ^ 32)
    (h2 : w2 < 2 ^ 32) (h3 : w3 < 2 ^ 32) :
    memcpy_data 4 [w0, w1, w2, w3] = ⟨w0 + 2 ^ 32 * w1, w2 + 2 ^ 32 * w3⟩ := by
  have hv : ∀ v ∈ [w0, w1, w2, w3], v < 2 ^ (8 * 4) := by
    intro v hv
    simp only [List.mem_cons, List.mem_singleton, List.not_mem_nil, or_false] at hv
    rcases hv with rfl | rfl | rfl | rfl <;> assumption
  rw [memcpy_data_eq 4 _ hv]
  simp only [concat_le, List.foldr_cons, List.foldr_nil, Nat.add_zero, Nat.mul_zero]
  congr 1 <;> omega

/-- C13: seeding from a seed sequence asks it for four 32-bit words `w0, w1, w2, w3` and
validates the state `s0 = w0 + 2^32 * w1`, `s1 = w2 + 2^32 * w3`; when the four words are not
all zero this is the final state. -/
theorem seed_from_sequence (SplitMix64 : Nat → Nat → Nat) (D fuel : Nat) (sseq : SeedSeq) :
    seed_sseq_ SplitMix64 D fuel sseq
        = validate_state_ SplitMix64 D fuel
            ⟨⟨sseq.generate 4 0 % 2 ^ 32 + 2 ^ 32 * (sseq.generate 4 1 % 2 ^ 32),
              sseq.generate 4 2 % 2 ^ 32 + 2 ^ 32 * (sseq.generate 4 3 % 2 ^ 32)⟩⟩ ∧
      (¬ (sseq.generate 4 0 % 2 ^ 32 = 0 ∧ sseq.generate 4 1 % 2 ^ 32 = 0 ∧
          sseq.generate 4 2 % 2 ^ 32 = 0 ∧ sseq.generate 4 3 % 2 ^ 32 = 0) →
        seed_sseq_ SplitMix64 D fuel sseq
          = some ⟨⟨sseq.generate 4 0 % 2 ^ 32 + 2 ^ 32 * (sseq.generate 4 1 % 2 ^ 32),
              sseq.generate 4 2 % 2 ^ 32 + 2 ^ 32 * (sseq.generate 4 3 % 2 ^ 32)⟩⟩) := by
  have b0 := Nat.mod_lt (sseq.generate 4 0) (by decide : 0 < 2 ^ 32)
  have b1 := Nat.mod_lt (sseq.generate 4 1) (by decide : 0 < 2 ^ 32)
  have b2 := Nat.mod_lt (sseq.generate 4 2) (by decide : 0 < 2 ^ 32)
  have b3 := Nat.mod_lt (sseq.generate 4 3) (by decide : 0 < 2 ^ 32)
  have e : List.range (state_length * 2) = [0, 1, 2, 3] := by decide
  have hs : seed_sseq_ SplitMix64 D fuel sseq
      = validate_state_ SplitMix64 D fuel
          ⟨⟨sseq.generate 4 0 % 2 ^ 32 + 2 ^ 32 * (sseq.generate 4 1 % 2 ^ 32),
            sseq.generate 4 2 % 2 ^ 32 + 2 ^ 32 * (sseq.generate 4 3 % 2 ^ 32)⟩⟩ := by
    simp only [seed_sseq_, e, List.map_cons, List.map_nil]
    rw [show state_length * 2 = 4 by decide, memcpy_data_four _ _ _ _ b0 b1 b2 b3]
  refine ⟨hs, fun hnz => ?_⟩
  rw [hs]
  apply validate_of_not_isZero
  intro hz
  have z0 : sseq.generate 4 0 % 2 ^ 32 + 2 ^ 32 * (sseq.generate 4 1 % 2 ^ 32) = 0 := hz.1
  have z1 : sseq.generate 4 2 % 2 ^ 32 + 2 ^ 32 * (sseq.generate 4 3 % 2 ^ 32) = 0 := hz.2
  exact hnz ⟨by omega, by omega, by omega, by omega⟩

/-- C12: seeding from a generator whose result type is 64 bits wide makes exactly two calls, the
first giving `s0` and the second `s1`, and validates these words; `seed(value)` does this with a
fresh seed expander built from `value`; two words that are not both zero are the final state. -/
theorem seed_from_integer (SplitMix64 : Nat → Nat → Nat) (D fuel : Nat) :
    (∀ gen : Generator, gen.result_size = 8 →
      seed_gen_ SplitMix64 D fuel gen
          = (validate_state_ SplitMix64 D fuel
              ⟨⟨gen.out gen.calls % 2 ^ 64, gen.out (gen.calls + 1) % 2 ^ 64⟩⟩).map
              (fun g => (g, ⟨8, gen.out, gen.calls + 2⟩)) ∧
        (¬ (gen.out gen.calls % 2 ^ 64 = 0 ∧ gen.out (gen.calls + 1) % 2 ^ 64 = 0) →
          seed_gen_ SplitMix64 D fuel gen
            = some (⟨⟨gen.out gen.calls % 2 ^ 64, gen.out (gen.calls + 1) % 2 ^ 64⟩⟩,
                ⟨8, gen.out, gen.calls + 2⟩))) ∧
    (∀ v : Nat,
      seed SplitMix64 D fuel v = (seed_gen_ SplitMix64 D fuel ⟨8, SplitMix64 v, 0⟩).map Prod.fst ∧
        (¬ (SplitMix64 v 0 % 2 ^ 64 = 0 ∧ SplitMix64 v 1 % 2 ^ 64 = 0) →
          seed SplitMix64 D fuel v
            = some ⟨⟨SplitMix64 v 0 % 2 ^ 64, SplitMix64 v 1 % 2 ^ 64⟩⟩)) := by
  constructor
  · intro gen h8
    have hs : seed_with_gen_same gen
        = (⟨gen.out gen.calls % 2 ^ 64, gen.out (gen.calls + 1) % 2 ^ 64⟩,
            ⟨8, gen.out, gen.calls + 2⟩) := by
      simp [seed_with_gen_same, Generator.call, h8]
    have hg : seed_gen_ SplitMix64 D fuel gen
        = (validate_state_ SplitMix64 D fuel
            ⟨⟨gen.out gen.calls % 2 ^ 64, gen.out (gen.calls + 1) % 2 ^ 64⟩⟩).map
            (fun g => (g, ⟨8, gen.out, gen.calls + 2⟩)) := by
      simp only [seed_gen_, h8, if_true, hs]
    refine ⟨hg, fun hnz => ?_⟩
    rw [hg, validate_of_not_isZero SplitMix64 D fuel
      (⟨⟨gen.out gen.calls % 2 ^ 64, gen.out (gen.calls + 1) % 2 ^ 64⟩⟩ : Xoroshiro128Plus D) hnz]
    rfl
  · intro v
    refine ⟨rfl, fun hnz => ?_⟩
    rw [seed_eq_validate, seed_with_gen_same_words]
    exact validate_of_not_isZero SplitMix64 D fuel _ hnz

/-! ## Reading text that does not hold two numbers -/

theorem readFails_of_not_ok (SplitMix64 : Nat → Nat → Nat) {D : Nat} (fuel : Nat)
    (is : IStream) (temp0 : Xoroshiro128PlusState) (g : Xoroshiro128Plus D)
    (h : (read_xoroshiro128plus_state is temp0).1.ok = false) :
    ReadFails SplitMix64 fuel is temp0 g := by
  refine ⟨(read_xoroshiro128plus_state is temp0).1, ?_, h⟩
  apply read_of_none
  have h' : (if (if is.ok then is.get_u64 temp0.data0 else (is, temp0.data0)).1.ok
            then (if is.ok then is.get_u64 temp0.data0 else (is, temp0.data0)).1.get_u64
              temp0.data1
            else ((if is.ok then is.get_u64 temp0.data0 else (is, temp0.data0)).1,
              temp0.data1)).1.ok = false := h
  simp only [read_xoroshiro128plus_state, h', Bool.false_eq_true, if_false]

theorem read_state_first_fails (is : IStream) (temp0 : Xoroshiro128PlusState)
    (h : (is.get_u64 temp0.data0).1.ok = false) :
    (read_xoroshiro128plus_state is temp0).1.ok = false := by
  simp only [read_xoroshiro128plus_state]
  by_cases h0 : is.ok = true
  · simp only [h0, if_true, h, Bool.false_eq_true, if_false]
  · have h0' : is.ok = false := by simpa using h0
    simp only [h0', Bool.false_eq_true, if_false]

theorem get_u64_spaces (sp : List Char) (old : Nat) (hsp : ∀ c ∈ sp, isspace c = true)
    (fl ef bd : Bool) : (IStream.get_u64 ⟨sp, fl, ef, bd⟩ old).1.ok = false := by
  have hdrop : sp.dropWhile isspace = [] := by
    have := dropWhile_append_of_all isspace sp [] hsp (fun c hc => by simp at hc)
    rwa [List.append_nil] at this
  unfold IStream.get_u64
  by_cases hbad : (fl || bd || ef) = true
  · simp [hbad, IStream.ok]
  · simp [hbad, hdrop, IStream.ok]

theorem isspace_not_digit (c : Char) (h : isspace c = true) : isdigit c = false := by
  simp only [isspace, Bool.or_eq_true, Bool.and_eq_true, decide_eq_true_eq] at h
  simp only [isdigit, Bool.and_eq_false_imp, decide_eq_true_eq, decide_eq_false_iff_not]
  omega

theorem get_u64_no_digit (sp rest : List Char) (c : Char) (old : Nat)
    (hsp : ∀ c ∈ sp, isspace c = true) (hs : isspace c = false) (hd : isdigit c = false)
    (hm : c ≠ Char.ofNat 45) (hp : c ≠ Char.ofNat 43) :
    (IStream.get_u64 ⟨sp ++ c :: rest, false, false, false⟩ old).1.ok = false := by
  have hskip : (sp ++ c :: rest).dropWhile isspace = c :: rest := by
    apply dropWhile_append_of_all _ _ _ hsp
    intro x hx
    simp only [List.head?_cons, Option.mem_def, Option.some.injEq] at hx
    rw [← hx]
    exact hs
  have htake : (c :: rest).takeWhile isdigit = [] := by
    simp [List.takeWhile_cons, hd]
  unfold IStream.get_u64
  simp [hskip, hm, hp, htake, convert_u64, IStream.ok]

theorem get_u64_token (sp ds rest : List Char) (old : Nat)
    (hsp : ∀ c ∈ sp, isspace c = true) (hds : ∀ c ∈ ds, isdigit c = true) (hne : ds ≠ [])
    (hrest : ∀ c ∈ rest.head?, isdigit c = false) :
    IStream.get_u64 ⟨sp ++ (ds ++ rest), false, false, false⟩ old
      = (⟨rest, (convert_u64 false ds).1, rest.isEmpty, false⟩, (convert_u64 false ds).2) := by
  obtain ⟨d, ds', rfl⟩ := List.exists_cons_of_ne_nil hne
  have hd := isdigit_not_special d (hds d (List.mem_cons_self _ _))
  have hskip : (sp ++ (d :: ds' ++ rest)).dropWhile isspace = d :: ds' ++ rest := by
    apply dropWhile_append_of_all _ _ _ hsp
    intro c hc
    simp only [List.cons_append, List.head?_cons, Option.mem_def, Option.some.injEq] at hc
    rw [← hc]
    exact hd.1
  have htake : (d :: ds' ++ rest).takeWhile isdigit = d :: ds' :=
    takeWhile_append_of_all _ _ _ hds hrest
  have hdrop : (d :: ds' ++ rest).dropWhile isdigit = rest :=
    dropWhile_append_of_all _ _ _ hds hrest
  have hm : decide ((d :: ds' ++ rest).head? = some (Char.ofNat 45)) = false := by
    simp [hd.2.1]
  have hp : decide ((d :: ds' ++ rest).head? = some (Char.ofNat 43)) = false := by
    simp [hd.2.2]
  unfold IStream.get_u64
  simp only [Bool.or_self, Bool.false_eq_true, if_false, hskip, hm, hp, htake, hdrop]
  simp

theorem read_state_one_token (sp ds sp' : List Char) (temp0 : Xoroshiro128PlusState)
    (hsp : ∀ c ∈ sp, isspace c = true) (hds : ∀ c ∈ ds, isdigit c = true) (hne : ds ≠ [])
    (hsp' : ∀ c ∈ sp', isspace c = true) :
    (read_xoroshiro128plus_state ⟨sp ++ (ds ++ sp'), false, false, false⟩ temp0).1.ok
      = false := by
  have hrest : ∀ c ∈ sp'.head?, isdigit c = false := by
    intro c hc
    exact isspace_not_digit c (hsp' c (List.mem_of_mem_head? hc))
  have g0 := get_u64_token sp ds sp' temp0.data0 hsp hds hne hrest
  simp only [read_xoroshiro128plus_state, IStream.ok, Bool.or_self, Bool.not_false, if_true, g0,
    Bool.or_false]
  cases hc : (convert_u64 false ds).1
  · simp only [Bool.not_false, if_true]
    exact get_u64_spaces sp' temp0.data1 hsp' false sp'.isEmpty false
  · simp

/-- C11: a read that leaves the stream failed leaves the generator as it was, with neither word
changed.  This is the case for text without any token (empty or only white space), for text
whose first token does not start a number, and for text with only one number. -/
theorem read_failure_atomic (SplitMix64 : Nat → Nat → Nat) (D fuel : Nat)
    (g : Xoroshiro128Plus D) (temp0 : Xoroshiro128PlusState) :
    (∀ is : IStream, (read_xoroshiro128plus_state is temp0).1.ok = false →
      ReadFails SplitMix64 fuel is temp0 g) ∧
    (∀ sp : List Char, (∀ c ∈ sp, isspace c = true) →
      ReadFails SplitMix64 fuel ⟨sp, false, false, false⟩ temp0 g) ∧
    (∀ (sp rest : List Char) (c : Char), (∀ x ∈ sp, isspace x = true) → isspace c = false →
      isdigit c = false → c ≠ Char.ofNat 45 → c ≠ Char.ofNat 43 →
      ReadFails SplitMix64 fuel ⟨sp ++ c :: rest, false, false, false⟩ temp0 g) ∧
    (∀ sp ds sp' : List Char, (∀ c ∈ sp, isspace c = true) → (∀ c ∈ ds, isdigit c = true) →
      ds ≠ [] → (∀ c ∈ sp', isspace c = true) →
      ReadFails SplitMix64 fuel ⟨sp ++ (ds ++ sp'), false, false, false⟩ temp0 g) := by
  refine ⟨fun is h => readFails_of_not_ok SplitMix64 fuel is temp0 g h, ?_, ?_, ?_⟩
  · intro sp hsp
    apply readFails_of_not_ok
    apply read_state_first_fails
    exact get_u64_spaces sp _ hsp false false false
  · intro sp rest c hsp hs hd hm hp
    apply readFails_of_not_ok
    apply read_state_first_fails
    exact get_u64_no_digit sp rest c _ hsp hs hd hm hp
  · intro sp ds sp' hsp hds hne hsp'
    apply readFails_of_not_ok
    exact read_state_one_token sp ds sp' temp0 hsp hds hne hsp'

theorem read_failure_atomic_witness :
    ReadFails (fun s i : Nat => s + i) 1
        ⟨[] ++ ([Char.ofNat 49, Char.ofNat 50, Char.ofNat 51] ++ []), false, false, false⟩ ⟨0, 0⟩
        (⟨⟨5, 6⟩⟩ : Xoroshiro128Plus 9) ∧
      ReadFails (fun s i : Nat => s + i) 1
        ⟨[] ++ Char.ofNat 97 :: [Char.ofNat 98, Char.ofNat 99, Char.ofNat 32, Char.ofNat 100,
          Char.ofNat 101, Char.ofNat 102], false, false, false⟩ ⟨0, 0⟩
        (⟨⟨5, 6⟩⟩ : Xoroshiro128Plus 9) ∧
      ReadFails (fun s i : Nat => s + i) 1 ⟨[], false, false, false⟩ ⟨0, 0⟩
        (⟨⟨5, 6⟩⟩ : Xoroshiro128Plus 9) :=
  ⟨(read_failure_atomic (fun s i : Nat => s + i) 9 1 ⟨⟨5, 6⟩⟩ ⟨0, 0⟩).2.2.2 []
      [Char.ofNat 49, Char.ofNat 50, Char.ofNat 51] [] (by decide) (by decide) (by decide)
      (by decide),
    (read_failure_atomic (fun s i : Nat => s + i) 9 1 ⟨⟨5, 6⟩⟩ ⟨0, 0⟩).2.2.1 []
      [Char.ofNat 98, Char.ofNat 99, Char.ofNat 32, Char.ofNat 100, Char.ofNat 101,
        Char.ofNat 102] (Char.ofNat 97) (by decide) (by decide) (by decide) (by decide)
      (by decide),
    (read_failure_atomic (fun s i : Nat => s + i) 9 1 ⟨⟨5, 6⟩⟩ ⟨0, 0⟩).2.1 [] (by decide)⟩

/-! ## Text written -/

theorem digitChar_eq (d : Nat) (hd : d < 10) : Nat.digitChar d = Char.ofNat (48 + d) := by
  have h : ∀ d < 10, Nat.digitChar d = Char.ofNat (48 + d) := by decide
  exact h d hd

theorem put_digits_eq_toDigitsCore (f g n : Nat) (acc : List Char) (hf : n < 10 ^ (f + 1))
    (hg : n < 10 ^ (g + 1)) : put_digits (f + 1) n acc = Nat.toDigitsCore 10 (g + 1) n acc := by
  induction f generalizing g n acc with
  | zero =>
    have h10 : n < 10 := by simpa using hf
    have hdiv : n / 10 = 0 := Nat.div_eq_of_lt h10
    simp only [put_digits, h10, if_true, Nat.toDigitsCore, hdiv, Nat.mod_eq_of_lt h10,
      digitChar_eq n h10]
  | succ f ih =>
    by_cases h10 : n < 10
    · have hdiv : n / 10 = 0 := Nat.div_eq_of_lt h10
      simp only [put_digits, h10, if_true, Nat.toDigitsCore, hdiv, Nat.mod_eq_of_lt h10,
        digitChar_eq n h10]
    · have hdiv : n / 10 ≠ 0 := by omega
      have hmod : n % 10 < 10 := Nat.mod_lt _ (by decide)
      have hf' : n / 10 < 10 ^ (f + 1) := by
        rw [Nat.div_lt_iff_lt_mul (by decide)]
        rwa [Nat.pow_succ] at hf
      cases g with
      | zero =>
        have : n < 10 := by simpa using hg
        exact absurd this h10
      | succ g =>
        have hg' : n / 10 < 10 ^ (g + 1) := by
          rw [Nat.div_lt_iff_lt_mul (by decide)]
          rwa [Nat.pow_succ] at hg
        rw [put_digits, if_neg h10, Nat.toDigitsCore]
        simp only [hdiv, if_false, digitChar_eq _ hmod]
        exact ih g (n / 10) _ hf' hg'

theorem put_u64_eq_toDigits (os : List Char) (x : Nat) (hx : x < 2 ^ 64) :
    put_u64 os x = os ++ Nat.toDigits 10 x := by
  have h1 : x < 10 ^ (19 + 1) := lt_trans hx (by norm_num)
  have h2 : x < 10 ^ (x + 1) :=
    lt_of_lt_of_le (Nat.lt_pow_self (by decide) x) (Nat.pow_le_pow_right (by decide) (by omega))
  rw [put_u64, Nat.toDigits, put_digits_eq_toDigitsCore 19 x x [] h1 h2]

/-- C14: the text written for a state `(s0, s1)` is the base-10 digits of `s0`, one space and
the base-10 digits of `s1`, after what the stream already held and with nothing else. -/
theorem write_spec (D : Nat) (g : Xoroshiro128Plus D) (os : List Char) (hg : g.state.WF) :
    g.write os = os ++ (Nat.toDigits 10 g.data0 ++ [Char.ofNat 32] ++ Nat.toDigits 10 g.data1) ∧
      g.state.write os
        = os ++ (Nat.toDigits 10 g.data0 ++ [Char.ofNat 32] ++ Nat.toDigits 10 g.data1) := by
  have h : g.state.write os
      = os ++ (Nat.toDigits 10 g.data0 ++ [Char.ofNat 32] ++ Nat.toDigits 10 g.data1) := by
    have h0 : g.state.data0 < 2 ^ 64 := hg.1
    have h1 : g.state.data1 < 2 ^ 64 := hg.2
    rw [Xoroshiro128PlusState.write, put_u64_eq_toDigits _ _ h1, put_u64_eq_toDigits _ _ h0]
    simp only [List.append_assoc]
    rfl
  exact ⟨h, h⟩

theorem write_spec_witness :
    (⟨⟨1234, 2 ^ 64 - 1⟩⟩ : Xoroshiro128Plus 7).state.WF ∧
      (⟨⟨1234, 2 ^ 64 - 1⟩⟩ : Xoroshiro128Plus 7).write []
        = [] ++ (Nat.toDigits 10 1234 ++ [Char.ofNat 32] ++ Nat.toDigits 10 (2 ^ 64 - 1)) :=
  ⟨by decide, (write_spec 7 ⟨⟨1234, 2 ^ 64 - 1⟩⟩ [] (by decide)).1⟩

end be.util
